import Mathlib

/-!
Verification of the Reverge Package File Library (RPFL) archive engine.

This file gives a shallow embedding of the library's core code paths:

* the binary codec (`byteswap`, `write_with_endianness`, `read_with_endianness`),
* the alignment round-up computation shared by writer and reader,
* the per-entry tiered data-residency object (`ArchiveFile`),
* the writer's table operations and serializer (`ArchiveWriter`),
* the reader's header/table parser and lookup surface (`ArchiveReader` state).

Machine integers are modelled as `Nat` with explicit reductions modulo `2^32`
or `2^64` at the places where the C++ performs fixed-width arithmetic that can
actually wrap.  Byte buffers are `List Nat` (each element standing for one
byte).  Reads that the C++ source performs without a bounds check are modelled
as returning a distinguished `oob` error when they would fall outside the
buffer; in the source such a read is undefined behaviour.
-/

namespace RPFL

/-- Little-endian byte decomposition of a `w`-byte integer, as produced by
`memcpy` of the value's object representation on a little-endian platform.
Truncation to `w` bytes is inherent, matching a fixed-width store. -/
def toBytesLE : Nat → Nat → List Nat
  | 0, _ => []
  | w + 1, v => v % 256 :: toBytesLE w (v / 256)

/-- Little-endian recomposition of a byte list into an integer. -/
def fromBytesLE : List Nat → Nat
  | [] => 0
  | b :: bs => b + 256 * fromBytesLE bs

/-- Byte swap from the source: `bit_cast` to a byte array, `reverse`, and
`bit_cast` back.  `w` is `sizeof(T)`. -/
def byteswap (w v : Nat) : Nat :=
  fromBytesLE (toBytesLE w v).reverse

/-- Byte-order selector from `archive_common`. -/
inductive Endianness where
  | Little
  | Big
  | Native
  deriving DecidableEq

/-- Object representation of a `w`-byte integer on the platform; `nb` is true
when the platform's native order is big-endian (`std::endian::native`). -/
def nativeToBytes (nb : Bool) (w v : Nat) : List Nat :=
  if nb then (toBytesLE w v).reverse else toBytesLE w v

/-- Integer obtained by `memcpy` of a byte list into a `w`-byte integer. -/
def nativeFromBytes (nb : Bool) (l : List Nat) : Nat :=
  if nb then fromBytesLE l.reverse else fromBytesLE l

/-- The `should_swap` condition of the source:
`(endian == Endianness::Big) != (std::endian::native == std::endian::big)`,
evaluated only when `endian != Endianness::Native`. -/
def shouldSwap (e : Endianness) (nb : Bool) : Bool :=
  match e with
  | .Native => false
  | .Big => !nb
  | .Little => nb

/-- Model of `write_with_endianness`: optionally byte-swap the value, then
store its `w`-byte object representation. -/
def write_with_endianness (nb : Bool) (w v : Nat) (e : Endianness) : List Nat :=
  nativeToBytes nb w (if shouldSwap e nb then byteswap w v else v)

/-- Model of `read_with_endianness`: `memcpy` `w` bytes from the source
pointer (here: the byte list at the pointer), then optionally byte-swap. -/
def read_with_endianness (nb : Bool) (w : Nat) (src : List Nat) (e : Endianness) : Nat :=
  let v := nativeFromBytes nb (src.take w)
  if shouldSwap e nb then byteswap w v else v

theorem length_toBytesLE (w v : Nat) : (toBytesLE w v).length = w := by
  induction w generalizing v with
  | zero => rfl
  | succ w ih => simp [toBytesLE, ih]

theorem mem_toBytesLE_lt {w v b : Nat} (h : b ∈ toBytesLE w v) : b < 256 := by
  induction w generalizing v with
  | zero => simp [toBytesLE] at h
  | succ w ih =>
    simp only [toBytesLE, List.mem_cons] at h
    rcases h with h | h
    · exact h ▸ Nat.mod_lt _ (by norm_num)
    · exact ih h

theorem fromBytesLE_toBytesLE (w v : Nat) :
    fromBytesLE (toBytesLE w v) = v % 256 ^ w := by
  induction w generalizing v with
  | zero => simp [toBytesLE, fromBytesLE, Nat.mod_one]
  | succ w ih =>
    have : (256 : Nat) ^ (w + 1) = 256 * 256 ^ w := by ring
    rw [toBytesLE, fromBytesLE, ih, this, Nat.mod_mul]

theorem fromBytesLE_lt {l : List Nat} (h : ∀ b ∈ l, b < 256) :
    fromBytesLE l < 256 ^ l.length := by
  induction l with
  | nil => simp [fromBytesLE]
  | cons b bs ih =>
    have hb : b < 256 := h b (List.mem_cons_self b bs)
    have hbs : fromBytesLE bs < 256 ^ bs.length := ih fun x hx => h x (List.mem_cons_of_mem _ hx)
    calc fromBytesLE (b :: bs) + 1 ≤ 256 * (fromBytesLE bs + 1) := by
          simp only [fromBytesLE, Nat.mul_add, Nat.mul_one]; omega
      _ ≤ 256 * 256 ^ bs.length := Nat.mul_le_mul_left _ hbs
      _ = 256 ^ (b :: bs).length := by simp [List.length_cons, pow_succ, Nat.mul_comm]

theorem toBytesLE_fromBytesLE {l : List Nat} (h : ∀ b ∈ l, b < 256) :
    toBytesLE l.length (fromBytesLE l) = l := by
  induction l with
  | nil => rfl
  | cons b bs ih =>
    have hb : b < 256 := h b (List.mem_cons_self b bs)
    have h1 : (b + 256 * fromBytesLE bs) % 256 = b := by
      rw [Nat.add_mul_mod_self_left]; exact Nat.mod_eq_of_lt hb
    have h2 : (b + 256 * fromBytesLE bs) / 256 = fromBytesLE bs := by
      rw [Nat.add_mul_div_left _ _ (by norm_num : (0:Nat) < 256),
        Nat.div_eq_of_lt hb, Nat.zero_add]
    simp only [List.length_cons, toBytesLE, fromBytesLE, h1, h2]
    exact congrArg _ (ih fun x hx => h x (List.mem_cons_of_mem _ hx))

theorem byteswap_lt (w v : Nat) : byteswap w v < 256 ^ w := by
  have := fromBytesLE_lt (l := (toBytesLE w v).reverse)
    (fun b hb => mem_toBytesLE_lt (List.mem_reverse.mp hb))
  simpa [byteswap, length_toBytesLE] using this

theorem byteswap_byteswap_mod (w v : Nat) :
    byteswap w (byteswap w v) = v % 256 ^ w := by
  have hlen : (toBytesLE w v).reverse.length = w := by simp [length_toBytesLE]
  have hmem : ∀ b ∈ (toBytesLE w v).reverse, b < 256 :=
    fun b hb => mem_toBytesLE_lt (List.mem_reverse.mp hb)
  have h2 := toBytesLE_fromBytesLE hmem
  rw [hlen] at h2
  rw [byteswap, byteswap, h2, List.reverse_reverse, fromBytesLE_toBytesLE]

theorem byteswap_byteswap {w v : Nat} (h : v < 256 ^ w) :
    byteswap w (byteswap w v) = v := by
  rw [byteswap_byteswap_mod, Nat.mod_eq_of_lt h]

theorem length_write_with_endianness (nb : Bool) (w v : Nat) (e : Endianness) :
    (write_with_endianness nb w v e).length = w := by
  unfold write_with_endianness nativeToBytes
  cases nb <;> simp [length_toBytesLE]

theorem nativeFromBytes_nativeToBytes (nb : Bool) (w v : Nat) :
    nativeFromBytes nb (nativeToBytes nb w v) = v % 256 ^ w := by
  cases nb <;> simp [nativeFromBytes, nativeToBytes, List.reverse_reverse,
    fromBytesLE_toBytesLE]

/-- Reading `w` bytes back from a just-written field recovers the value
truncated to the field's width, for the same endianness on both sides; any
trailing bytes after the field are ignored. -/
theorem read_write_with_endianness (nb : Bool) (w v : Nat) (e : Endianness)
    (tail : List Nat) :
    read_with_endianness nb w (write_with_endianness nb w v e ++ tail) e = v % 256 ^ w := by
  have hnat : ∀ x : Nat, (nativeToBytes nb w x ++ tail).take w = nativeToBytes nb w x := by
    intro x
    have hl : (nativeToBytes nb w x).length = w := by
      cases nb <;> simp [nativeToBytes, length_toBytesLE]
    have := List.take_left (nativeToBytes nb w x) tail
    rwa [hl] at this
  simp only [read_with_endianness, write_with_endianness]
  cases hs : shouldSwap e nb with
  | false => simp only [hs, Bool.false_eq_true, if_false, hnat,
      nativeFromBytes_nativeToBytes]
  | true =>
    simp only [hs, if_true, hnat, nativeFromBytes_nativeToBytes]
    rw [Nat.mod_eq_of_lt (byteswap_lt w v), byteswap_byteswap_mod]

/-- C10 (confirmed).  The binary codec is a per-field bijection: for every
fixed-width integer value `v` (hypothesis `v < 256 ^ w` expresses that `v` is
a value of the `w`-byte type) and every endianness among Little, Big and
Native, on either native byte order, reading back a written field recovers
`v`; and `byteswap` is an involution. -/
theorem claim_C10_codec_bijection (nb : Bool) (w v : Nat) (e : Endianness)
    (hv : v < 256 ^ w) :
    read_with_endianness nb w (write_with_endianness nb w v e) e = v ∧
      byteswap w (byteswap w v) = v := by
  constructor
  · have := read_write_with_endianness nb w v e []
    rw [List.append_nil] at this
    rw [this, Nat.mod_eq_of_lt hv]
  · exact byteswap_byteswap hv

/-- Witness for C10 at a concrete 32-bit value. -/
theorem claim_C10_codec_bijection_witness :
    read_with_endianness false 4
        (write_with_endianness false 4 305419896 Endianness.Big) Endianness.Big = 305419896 ∧
      byteswap 4 (byteswap 4 305419896) = 305419896 :=
  claim_C10_codec_bijection false 4 305419896 Endianness.Big (by norm_num)

/-- Alignment round-up shared (textually) by the writer's `write_file_data`
and `total_size` and the reader's `parse_file_table`:
`offset = (offset + align - 1) & ~(align - 1)`, guarded by `align > 1`.
The offset is a 64-bit value and `align` a 32-bit one, so `~(align - 1)` is
complemented at 32 bits (modelled as XOR with `2^32 - 1`, the value of `~` on
`uint32_t`) and then zero-extended for the 64-bit AND, while the sum
`offset + align - 1` wraps at 64 bits. -/
def alignUp (off a : Nat) : Nat :=
  if 1 < a then
    ((off + a - 1) % 2 ^ 64) &&& ((2 ^ 32 - 1) ^^^ ((a - 1) % 2 ^ 32))
  else off

theorem add_eq_xor_of_and_eq_zero : ∀ a b : Nat, a &&& b = 0 → a + b = a ^^^ b := by
  intro a
  induction a using Nat.strong_induction_on with
  | _ a ih =>
    intro b hab
    rcases Nat.eq_zero_or_pos a with ha | ha
    · simp [ha]
    have hd : a / 2 &&& b / 2 = 0 := by
      rw [← Nat.and_div_two, hab]
    have ih2 := ih (a / 2) (Nat.div_lt_self ha (by norm_num)) (b / 2) hd
    have hmod : ¬ (a % 2 = 1 ∧ b % 2 = 1) := by
      intro ⟨h1, h2⟩
      have : (a &&& b) % 2 = 1 := Nat.and_mod_two_eq_one.mpr ⟨h1, h2⟩
      rw [hab] at this
      simp at this
    have hxm : (a ^^^ b) % 2 = (a + b) % 2 := Nat.xor_mod_two_eq
    have hxd : (a ^^^ b) / 2 = a / 2 ^^^ b / 2 := Nat.xor_div_two
    have ha2 := Nat.div_add_mod a 2
    have hb2 := Nat.div_add_mod b 2
    have hx2 := Nat.div_add_mod (a ^^^ b) 2
    have hma : a % 2 < 2 := Nat.mod_lt _ (by norm_num)
    have hmb : b % 2 < 2 := Nat.mod_lt _ (by norm_num)
    omega

theorem land_comp_of_lt {w m : Nat} (s : Nat) (hm : m < 2 ^ w) :
    m &&& ((2 ^ w - 1) ^^^ s) = m ^^^ (m &&& s) := by
  apply Nat.eq_of_testBit_eq
  intro i
  by_cases hi : Nat.testBit m i = true
  · have hiw : i < w := by
      by_contra hge
      have : m < 2 ^ i := lt_of_lt_of_le hm (Nat.pow_le_pow_right (by norm_num) (by omega))
      rw [Nat.testBit_lt_two_pow this] at hi
      exact absurd hi (by simp)
    simp [Nat.testBit_and, Nat.testBit_xor, Nat.testBit_two_pow_sub_one, hi, hiw]
  · have hif : Nat.testBit m i = false := by simpa using hi
    simp [Nat.testBit_and, Nat.testBit_xor, Nat.testBit_two_pow_sub_one, hif]

theorem xor_and_self_eq_sub (m s : Nat) : m ^^^ (m &&& s) = m - (m &&& s) := by
  have hdisj : (m ^^^ (m &&& s)) &&& (m &&& s) = 0 := by
    apply Nat.eq_of_testBit_eq
    intro i
    simp only [Nat.testBit_and, Nat.testBit_xor, Nat.zero_testBit]
    cases hm : Nat.testBit m i <;> cases hs : Nat.testBit s i <;> simp
  have hsum : (m ^^^ (m &&& s)) + (m &&& s) = m := by
    rw [add_eq_xor_of_and_eq_zero _ _ hdisj, Nat.xor_cancel_right]
  omega

theorem alignUp_of_le {off a : Nat} (h : a ≤ 1) : alignUp off a = off := by
  unfold alignUp
  rw [if_neg (by omega)]

theorem alignUp_eq_of_lt {off a : Nat} (h1 : 1 < a) (hm : off + a - 1 < 2 ^ 32) :
    alignUp off a = (off + a - 1) - ((off + a - 1) &&& (a - 1)) := by
  unfold alignUp
  rw [if_pos h1]
  have h64 : (off + a - 1) % 2 ^ 64 = off + a - 1 :=
    Nat.mod_eq_of_lt (lt_trans hm (by norm_num))
  have h32 : (a - 1) % 2 ^ 32 = a - 1 := Nat.mod_eq_of_lt (by omega)
  rw [h64, h32, land_comp_of_lt _ hm, xor_and_self_eq_sub]

theorem alignUp_ge {off a : Nat} (hm : off + a - 1 < 2 ^ 32) : off ≤ alignUp off a := by
  by_cases h1 : 1 < a
  · rw [alignUp_eq_of_lt h1 hm]
    have := Nat.and_le_right (n := off + a - 1) (m := a - 1)
    omega
  · rw [alignUp_of_le (by omega)]

theorem alignUp_le_add {off a : Nat} (hm : off + a - 1 < 2 ^ 32) :
    alignUp off a ≤ off + a := by
  by_cases h1 : 1 < a
  · rw [alignUp_eq_of_lt h1 hm]
    omega
  · rw [alignUp_of_le (by omega)]
    omega

theorem alignUp_pow2 {off k : Nat} (hk : 0 < k) (hm : off + 2 ^ k - 1 < 2 ^ 32) :
    alignUp off (2 ^ k) = (off + 2 ^ k - 1) - (off + 2 ^ k - 1) % 2 ^ k := by
  have h1 : 1 < 2 ^ k := Nat.one_lt_two_pow_iff.mpr (by omega)
  rw [alignUp_eq_of_lt h1 hm, Nat.and_pow_two_sub_one_eq_mod]

/-- Statement that `off` is the smallest multiple of `a` that is at least `n`
(the property the spec claims for every computed entry offset). -/
def leastAligned (a n off : Nat) : Prop :=
  off % a = 0 ∧ n ≤ off ∧ ∀ c, c % a = 0 → n ≤ c → off ≤ c

theorem alignUp_leastAligned {off k : Nat} (hk : 0 < k)
    (hm : off + 2 ^ k - 1 < 2 ^ 32) :
    leastAligned (2 ^ k) off (alignUp off (2 ^ k)) := by
  have hapos : 0 < 2 ^ k := Nat.pos_pow_of_pos _ (by norm_num)
  have h1 : 1 ≤ 2 ^ k := hapos
  rw [alignUp_pow2 hk hm]
  have hdm := Nat.div_add_mod (off + 2 ^ k - 1) (2 ^ k)
  have hmlt : (off + 2 ^ k - 1) % 2 ^ k < 2 ^ k := Nat.mod_lt _ hapos
  refine ⟨?_, by omega, ?_⟩
  · have heq : (off + 2 ^ k - 1) - (off + 2 ^ k - 1) % 2 ^ k
        = 2 ^ k * ((off + 2 ^ k - 1) / 2 ^ k) := by omega
    rw [heq, Nat.mul_mod_right]
  · intro c hc hoc
    have hcd := Nat.div_add_mod c (2 ^ k)
    have hdiv : (off + 2 ^ k - 1) / 2 ^ k < c / 2 ^ k + 1 := by
      rw [Nat.div_lt_iff_lt_mul hapos]
      have : c = 2 ^ k * (c / 2 ^ k) := by omega
      calc off + 2 ^ k - 1 < off + 2 ^ k := by omega
        _ ≤ 2 ^ k * (c / 2 ^ k) + 2 ^ k := by omega
        _ = (c / 2 ^ k + 1) * 2 ^ k := by ring
    have hq : (off + 2 ^ k - 1) / 2 ^ k ≤ c / 2 ^ k := by omega
    have := Nat.mul_le_mul_left (2 ^ k) hq
    omega

/-- Bytes `[pos, pos + n)` of a buffer, the model of a span `{ptr + pos, n}`
into mapped memory (clipped at the end of the buffer). -/
def extract (D : List Nat) (pos n : Nat) : List Nat :=
  (D.drop pos).take n

/-- The tri-state data residency of an entry (`std::variant<MappedView,
CachedData, StreamData>`).  A stream is modelled by the byte content it was
constructed over (the source pre-materializes the entry's bytes into a
`stringstream`). -/
inductive DataHolder where
  | mappedView (bytes : List Nat)
  | cachedData (bytes : List Nat)
  | streamData (content : List Nat)
  deriving DecidableEq

/-- One entry of an open archive.  `archive_data` models the borrowed pointer
to the start of the mapped archive buffer. -/
structure ArchiveFile where
  path : List Nat
  offset : Nat
  size : Nat
  archive_data : List Nat
  cache_threshold : Nat
  supports_streaming : Bool
  data_holder : DataHolder
  is_loaded : Bool
  deriving DecidableEq

/-- The `ArchiveFile` constructor: `supports_streaming` is fixed here as
`allow_streaming && size > cache_threshold`; the variant member starts in its
first alternative, an empty `MappedView`, and nothing is loaded yet. -/
def mkArchiveFile (path : List Nat) (offset size : Nat) (archive_data : List Nat)
    (cache_threshold : Nat) (allow_streaming : Bool) : ArchiveFile :=
  { path := path
    offset := offset
    size := size
    archive_data := archive_data
    cache_threshold := cache_threshold
    supports_streaming := allow_streaming && decide (cache_threshold < size)
    data_holder := .mappedView []
    is_loaded := false }

/-- Materialization policy of `ArchiveFile::ensure_loaded`: small entries are
copied into an owned buffer, large streamable ones get a buffered stream, and
the rest a mapped view. -/
def ArchiveFile.ensure_loaded (f : ArchiveFile) : ArchiveFile :=
  if f.is_loaded then f
  else if f.size ≤ f.cache_threshold then
    { f with data_holder := .cachedData (extract f.archive_data f.offset f.size),
             is_loaded := true }
  else if f.supports_streaming then
    { f with data_holder := .streamData (extract f.archive_data f.offset f.size),
             is_loaded := true }
  else
    { f with data_holder := .mappedView (extract f.archive_data f.offset f.size),
             is_loaded := true }

/-- The span returned by the `std::visit` in `ArchiveFile::data`: stream
residency yields an empty span by explicit choice in the source. -/
def holderSpan : DataHolder → List Nat
  | .mappedView b => b
  | .cachedData b => b
  | .streamData _ => []

/-- Model of `ArchiveFile::data`: materialize on first call, then return the
residency's span, together with the updated entry. -/
def ArchiveFile.data (f : ArchiveFile) : List Nat × ArchiveFile :=
  (holderSpan f.ensure_loaded.data_holder, f.ensure_loaded)

/-- Model of `ArchiveFile::is_cached`: whether the variant currently holds
`CachedData`. -/
def ArchiveFile.is_cached (f : ArchiveFile) : Bool :=
  match f.data_holder with
  | .cachedData _ => true
  | _ => false

/-- Model of `ArchiveFile::release_cache`: an owned buffer is discarded and
the entry reset to unloaded; any other residency is left untouched. -/
def ArchiveFile.release_cache (f : ArchiveFile) : ArchiveFile :=
  if f.is_cached then
    { f with data_holder := .mappedView [], is_loaded := false }
  else f

/-- Model of `ArchiveFile::open_stream`: streaming-capable entries get a fresh
stream from the factory (a buffered copy of the mapped bytes); otherwise the
entry is materialized and a stream is built over whichever residency holds the
bytes.  The stream is modelled by the bytes it delivers. -/
def ArchiveFile.open_stream (f : ArchiveFile) : List Nat × ArchiveFile :=
  if f.supports_streaming then
    (extract f.archive_data f.offset f.size, f)
  else
    (match f.ensure_loaded.data_holder with
      | .streamData c => c
      | .cachedData b => b
      | .mappedView b => b,
     f.ensure_loaded)

/-- Model of `ArchiveFile::as_string_view`: the data span, except that for
stream residency (empty span) the whole stream is read out instead. -/
def ArchiveFile.as_string_view (f : ArchiveFile) : List Nat × ArchiveFile :=
  if (f.data).1.isEmpty
      && (match (f.data).2.data_holder with | .streamData _ => true | _ => false) then
    (f.data).2.open_stream
  else f.data

/-- C5 (confirmed).  An entry no larger than the cache threshold is cached by
its first `data()` call and the returned bytes are the entry's on-disk bytes;
`release_cache` resets it to unloaded and a later `data()` returns the same
bytes; `release_cache` on a non-cached entry changes nothing. -/
theorem claim_C5_cache_threshold (p D : List Nat) (off sz thr : Nat) (strm : Bool)
    (hsz : sz ≤ thr) :
    ((mkArchiveFile p off sz D thr strm).data).1 = extract D off sz ∧
    ((mkArchiveFile p off sz D thr strm).data).2.is_cached = true ∧
    ((mkArchiveFile p off sz D thr strm).data).2.release_cache.is_cached = false ∧
    ((mkArchiveFile p off sz D thr strm).data).2.release_cache.is_loaded = false ∧
    (((mkArchiveFile p off sz D thr strm).data).2.release_cache.data).1
      = ((mkArchiveFile p off sz D thr strm).data).1 ∧
    (∀ g : ArchiveFile, g.is_cached = false → g.release_cache = g) := by
  refine ⟨?_, ?_, ?_, ?_, ?_, ?_⟩
  · simp [mkArchiveFile, ArchiveFile.data, ArchiveFile.ensure_loaded, holderSpan, hsz]
  · simp [mkArchiveFile, ArchiveFile.data, ArchiveFile.ensure_loaded,
      ArchiveFile.is_cached, hsz]
  · simp [mkArchiveFile, ArchiveFile.data, ArchiveFile.ensure_loaded,
      ArchiveFile.is_cached, ArchiveFile.release_cache, hsz]
  · simp [mkArchiveFile, ArchiveFile.data, ArchiveFile.ensure_loaded,
      ArchiveFile.is_cached, ArchiveFile.release_cache, hsz]
  · simp [mkArchiveFile, ArchiveFile.data, ArchiveFile.ensure_loaded,
      ArchiveFile.is_cached, ArchiveFile.release_cache, holderSpan, hsz]
  · intro g hg
    unfold ArchiveFile.release_cache
    rw [hg]
    simp

/-- Witness for C5: a two-byte entry under a threshold of 8. -/
theorem claim_C5_cache_threshold_witness :
    2 ≤ 8 ∧
    (((mkArchiveFile [97] 0 2 [10, 20] 8 true).data).1 = extract [10, 20] 0 2 ∧
      ((mkArchiveFile [97] 0 2 [10, 20] 8 true).data).2.is_cached = true ∧
      ((mkArchiveFile [97] 0 2 [10, 20] 8 true).data).2.release_cache.is_cached = false ∧
      ((mkArchiveFile [97] 0 2 [10, 20] 8 true).data).2.release_cache.is_loaded = false ∧
      (((mkArchiveFile [97] 0 2 [10, 20] 8 true).data).2.release_cache.data).1
        = ((mkArchiveFile [97] 0 2 [10, 20] 8 true).data).1 ∧
      (∀ g : ArchiveFile, g.is_cached = false → g.release_cache = g)) :=
  ⟨by norm_num, claim_C5_cache_threshold [97] [10, 20] 0 2 8 true (by norm_num)⟩

/-- C9 (confirmed).  For an entry larger than the cache threshold with
streaming allowed, `data()` yields an empty span, not the entry's bytes;
`as_string_view()` and `open_stream()` deliver the full content, so `data()`
does not always equal the on-disk bytes. -/
theorem claim_C9_streaming_empty_span (p D : List Nat) (off sz thr : Nat)
    (hsz : thr < sz) (hin : off + sz ≤ D.length) :
    ((mkArchiveFile p off sz D thr true).data).1 = [] ∧
    ((mkArchiveFile p off sz D thr true).as_string_view).1 = extract D off sz ∧
    ((mkArchiveFile p off sz D thr true).open_stream).1 = extract D off sz ∧
    ((mkArchiveFile p off sz D thr true).data).1 ≠ extract D off sz := by
  have hns : ¬ sz ≤ thr := by omega
  have hlen : (extract D off sz).length = sz := by
    simp only [extract, List.length_take, List.length_drop]
    omega
  have hext : extract D off sz ≠ [] := by
    intro h
    rw [h] at hlen
    simp at hlen
    omega
  refine ⟨?_, ?_, ?_, ?_⟩
  · simp [mkArchiveFile, ArchiveFile.data, ArchiveFile.ensure_loaded, holderSpan,
      hns, hsz]
  · simp [mkArchiveFile, ArchiveFile.data, ArchiveFile.ensure_loaded, holderSpan,
      ArchiveFile.as_string_view, ArchiveFile.open_stream, hns, hsz]
  · simp [mkArchiveFile, ArchiveFile.open_stream, hsz]
  · simp only [mkArchiveFile, ArchiveFile.data, ArchiveFile.ensure_loaded, holderSpan]
    simp [hns, hsz, Ne.symm hext]

/-- Witness for C9: a three-byte entry over a threshold of 1. -/
theorem claim_C9_streaming_empty_span_witness :
    1 < 3 ∧ 0 + 3 ≤ [5, 6, 7].length ∧
    (((mkArchiveFile [98] 0 3 [5, 6, 7] 1 true).data).1 = [] ∧
      ((mkArchiveFile [98] 0 3 [5, 6, 7] 1 true).as_string_view).1 = extract [5, 6, 7] 0 3 ∧
      ((mkArchiveFile [98] 0 3 [5, 6, 7] 1 true).open_stream).1 = extract [5, 6, 7] 0 3 ∧
      ((mkArchiveFile [98] 0 3 [5, 6, 7] 1 true).data).1 ≠ extract [5, 6, 7] 0 3) :=
  ⟨by norm_num, by simp,
    claim_C9_streaming_empty_span [98] [5, 6, 7] 0 3 1 (by norm_num) (by simp)⟩

/-- One row of the writer's in-memory table: owned path, owned bytes and the
stored (32-bit) alignment. -/
structure FileEntry where
  path : List Nat
  data : List Nat
  align : Nat
  deriving DecidableEq

/-- Writer state: configuration plus the entry table.  The C++ table is an
`unordered_map` keyed by path; the list here is its iteration order, which
every serialization member walks consistently. -/
structure ArchiveWriter where
  identifier : List Nat
  version : List Nat
  endianness : Endianness
  default_alignment : Nat
  files : List FileEntry
  deriving DecidableEq

/-- Model of `ArchiveWriter::contains`. -/
def ArchiveWriter.contains (w : ArchiveWriter) (p : List Nat) : Bool :=
  w.files.any fun e => decide (e.path = p)

/-- Model of `ArchiveWriter::add_file`: empty and duplicate paths are usage
errors; alignment 0 selects the configured default. -/
def ArchiveWriter.add_file (w : ArchiveWriter) (path data : List Nat)
    (alignment : Nat) : Except String ArchiveWriter :=
  if path = [] then .error "File path cannot be empty"
  else if w.contains path then .error "File already exists in archive"
  else .ok { w with files := w.files ++
    [{ path := path, data := data,
       align := if 0 < alignment then alignment else w.default_alignment }] }

/-- Model of `ArchiveWriter::remove_file`: erase by key, reporting whether
anything was erased. -/
def ArchiveWriter.remove_file (w : ArchiveWriter) (p : List Nat) :
    Bool × ArchiveWriter :=
  (w.contains p, { w with files := w.files.filter fun e => !decide (e.path = p) })

/-- Byte size of the serialized file table (the per-entry part of
`calculate_header_size`): 8 bytes path length, path, 8 bytes size, 4 bytes
alignment per row. -/
def rowSize : List FileEntry → Nat
  | [] => 0
  | e :: fs => 8 + e.path.length + 8 + 4 + rowSize fs

/-- Model of `ArchiveWriter::calculate_header_size`: fixed header fields plus
the table rows. -/
def ArchiveWriter.calculate_header_size (w : ArchiveWriter) : Nat :=
  4 + (8 + w.identifier.length) + (8 + w.version.length) + 8 + rowSize w.files

/-- Model of `ArchiveWriter::total_size`: replay the alignment-and-advance
loop over the table starting at the header size. -/
def ArchiveWriter.total_size (w : ArchiveWriter) : Nat :=
  w.files.foldl (fun t e => alignUp t e.align + e.data.length) w.calculate_header_size

/-- The final cursor of the data-layout loop started at `cur`; equals
`total_size` when started at the header size. -/
def finalCur : Nat → List FileEntry → Nat
  | cur, [] => cur
  | cur, e :: fs => finalCur (alignUp cur e.align + e.data.length) fs

theorem total_size_eq_finalCur (w : ArchiveWriter) :
    w.total_size = finalCur w.calculate_header_size w.files := by
  unfold ArchiveWriter.total_size
  generalize w.calculate_header_size = c
  induction w.files generalizing c with
  | nil => rfl
  | cons e fs ih => simp [finalCur, List.foldl_cons, ih]

/-- Conservative bound on everything the layout loop can add after `cur`:
per entry at most `align - 1` padding plus the data bytes. -/
def remSum : List FileEntry → Nat
  | [] => 0
  | e :: fs => e.align + e.data.length + remSum fs

/-- All layout arithmetic of an archive stays strictly below `2^32` when this
bound does; this is the no-overflow side condition of the 32-bit mask in
`alignUp` and of the `u32` `data_offset` header field. -/
def smallBound (w : ArchiveWriter) : Nat :=
  w.calculate_header_size + remSum w.files

/-- Serialized header fields, in the order written by `write_header`:
`u32 data_offset` (the header size, truncated to 32 bits by the cast),
length-prefixed identifier and version, and the `u64` entry count. -/
def headerBytes (nb : Bool) (w : ArchiveWriter) : List Nat :=
  write_with_endianness nb 4 w.calculate_header_size w.endianness ++
  write_with_endianness nb 8 w.identifier.length w.endianness ++ w.identifier ++
  write_with_endianness nb 8 w.version.length w.endianness ++ w.version ++
  write_with_endianness nb 8 w.files.length w.endianness

/-- One serialized table row, as written by `write_file_table`. -/
def rowBytes (nb : Bool) (e : Endianness) (f : FileEntry) : List Nat :=
  write_with_endianness nb 8 f.path.length e ++ f.path ++
  write_with_endianness nb 8 f.data.length e ++
  write_with_endianness nb 4 f.align e

/-- The serialized table: rows in iteration order. -/
def tableBytes (nb : Bool) (e : Endianness) : List FileEntry → List Nat
  | [] => []
  | f :: fs => rowBytes nb e f ++ tableBytes nb e fs

/-- The data region produced by `write_file_data` starting with write cursor
`cur`: for each entry, the zero padding up to the aligned offset (bytes of
the value-initialized buffer the `memcpy` skips over) followed by the entry's
bytes.  This models the source's strictly forward sequential writes; when an
aligned offset would fall below the cursor (only possible when the 32-bit
mask truncates an offset at or above `2^32`) the source overwrites earlier
buffer content instead, which is outside this model and excluded by the
`smallBound` hypotheses of the theorems below. -/
def dataSectionFrom : Nat → List FileEntry → List Nat
  | _, [] => []
  | cur, f :: fs =>
    List.replicate (alignUp cur f.align - cur) 0 ++ f.data ++
      dataSectionFrom (alignUp cur f.align + f.data.length) fs

/-- Model of `ArchiveWriter::write_to_memory`: header, table, then the data
region laid out from the header size. -/
def write_to_memory (nb : Bool) (w : ArchiveWriter) : List Nat :=
  headerBytes nb w ++ tableBytes nb w.endianness w.files ++
    dataSectionFrom w.calculate_header_size w.files

theorem length_rowBytes (nb : Bool) (e : Endianness) (f : FileEntry) :
    (rowBytes nb e f).length = 20 + f.path.length := by
  simp [rowBytes, length_write_with_endianness]
  omega

theorem length_tableBytes (nb : Bool) (e : Endianness) (fs : List FileEntry) :
    (tableBytes nb e fs).length = rowSize fs := by
  induction fs with
  | nil => rfl
  | cons f fs ih =>
    simp [tableBytes, rowSize, length_rowBytes, ih]
    omega

theorem length_headerBytes (nb : Bool) (w : ArchiveWriter) :
    (headerBytes nb w).length = 28 + w.identifier.length + w.version.length := by
  simp [headerBytes, length_write_with_endianness]
  omega

theorem finalCur_ge {l : List FileEntry} :
    ∀ {c : Nat}, c + remSum l < 2 ^ 32 → c ≤ finalCur c l := by
  induction l with
  | nil => intro c _; exact Nat.le_refl _
  | cons e fs ih =>
    intro c h
    simp only [remSum] at h
    have h1 : c + e.align - 1 < 2 ^ 32 := by omega
    have h2 : alignUp c e.align ≤ c + e.align := alignUp_le_add h1
    have h3 : c ≤ alignUp c e.align := alignUp_ge h1
    have h4 : alignUp c e.align + e.data.length + remSum fs < 2 ^ 32 := by omega
    calc c ≤ alignUp c e.align + e.data.length := by omega
      _ ≤ finalCur (alignUp c e.align + e.data.length) fs := ih h4
      _ = finalCur c (e :: fs) := rfl

theorem length_dataSectionFrom {l : List FileEntry} :
    ∀ {c : Nat}, c + remSum l < 2 ^ 32 →
      (dataSectionFrom c l).length = finalCur c l - c := by
  induction l with
  | nil => intro c _; simp [dataSectionFrom, finalCur]
  | cons e fs ih =>
    intro c h
    simp only [remSum] at h
    have h1 : c + e.align - 1 < 2 ^ 32 := by omega
    have h2 : alignUp c e.align ≤ c + e.align := alignUp_le_add h1
    have h3 : c ≤ alignUp c e.align := alignUp_ge h1
    have h4 : alignUp c e.align + e.data.length + remSum fs < 2 ^ 32 := by omega
    have h5 := finalCur_ge h4
    simp only [dataSectionFrom, finalCur, List.length_append, List.length_replicate,
      ih h4]
    omega

/-- Identifier "Reverge Package File" of the spec's concrete scenario. -/
def identRPF : List Nat :=
  [82, 101, 118, 101, 114, 103, 101, 32, 80, 97, 99, 107, 97, 103, 101, 32, 70, 105, 108, 101]

/-- Version "1.1" of the concrete scenario. -/
def versionOneOne : List Nat := [49, 46, 49]

/-- Scenario writer before the entry is added: default configuration with
identifier "Reverge Package File", version "1.1" and default alignment 1. -/
def scenarioEmptyWriter : ArchiveWriter :=
  { identifier := identRPF, version := versionOneOne, endianness := .Big,
    default_alignment := 1, files := [] }

/-- Scenario entry "a.txt" holding the 13 bytes "Hello, World!". -/
def scenarioEntry : FileEntry :=
  { path := [97, 46, 116, 120, 116],
    data := [72, 101, 108, 108, 111, 44, 32, 87, 111, 114, 108, 100, 33],
    align := 1 }

/-- Scenario writer with the single entry added. -/
def scenarioWriter : ArchiveWriter :=
  { scenarioEmptyWriter with files := [scenarioEntry] }

/-- C8 (confirmed).  `total_size` is a pure (`const noexcept`) query modelled
as a function of the writer state; whenever the layout arithmetic stays in
32-bit range it equals the exact length of the buffer `write_to_memory`
produces.  For the concrete scenario — identifier "Reverge Package File",
version "1.1", default alignment 1 and single entry "a.txt" holding the
13 bytes "Hello, World!" — adding the entry succeeds and `total_size` is the
51-byte header plus the 25-byte table plus the 13 data bytes. -/
theorem claim_C8_total_size (nb : Bool) (w : ArchiveWriter)
    (hs : smallBound w < 2 ^ 32) :
    (write_to_memory nb w).length = w.total_size ∧
    scenarioEmptyWriter.add_file scenarioEntry.path scenarioEntry.data 0
      = .ok scenarioWriter ∧
    scenarioWriter.total_size = 51 + 25 + 13 := by
  refine ⟨?_, by rfl, by decide⟩
  unfold smallBound at hs
  have hrem : w.calculate_header_size + remSum w.files < 2 ^ 32 := hs
  have hlen := length_dataSectionFrom (c := w.calculate_header_size) hrem
  have hge := finalCur_ge (c := w.calculate_header_size) hrem
  simp only [write_to_memory, List.length_append, length_headerBytes,
    length_tableBytes, hlen, total_size_eq_finalCur,
    ArchiveWriter.calculate_header_size] at *
  omega

/-- Witness for C8 at the concrete scenario writer itself. -/
theorem claim_C8_total_size_witness :
    smallBound scenarioWriter < 2 ^ 32 ∧
    (write_to_memory false scenarioWriter).length = scenarioWriter.total_size :=
  ⟨by decide, (claim_C8_total_size false scenarioWriter (by decide)).1⟩

/-- Default-configured writer with no entries. -/
def emptyWriter : ArchiveWriter :=
  { identifier := [], version := [], endianness := .Big,
    default_alignment := 1, files := [] }

/-- Writer already holding an entry at path `[97]` ("a"). -/
def dupWriter : ArchiveWriter :=
  { identifier := [], version := [], endianness := .Big, default_alignment := 1,
    files := [{ path := [97], data := [1], align := 1 }] }

/-- C6 counterexample.  The claim asserts that for every path,
`remove_file(path)` followed by `add_file(path, bytes)` succeeds; at the
empty path the sequence raises the empty-path usage error instead, as the
claim's own first conjunct requires. -/
theorem claim_C6_counterexample :
    ((emptyWriter.remove_file []).2).add_file [] [104] 0
      = .error "File path cannot be empty" := rfl

theorem contains_remove_file (w : ArchiveWriter) (p : List Nat) :
    ((w.remove_file p).2).contains p = false := by
  simp only [ArchiveWriter.remove_file, ArchiveWriter.contains]
  rw [List.any_eq_false]
  intro e he
  rw [List.mem_filter] at he
  simpa using he.2

/-- C6 amended (proved).  `add_file` raises a usage error for an empty path
and for a path already present (the writer object, modelled by the `Except`
value, is unchanged in those cases since the error is raised before any
mutation), and for every nonempty path `remove_file` followed by `add_file`
succeeds. -/
theorem claim_C6_add_remove (w : ArchiveWriter) (p d : List Nat) (a : Nat) :
    (p = [] → ∃ msg, w.add_file p d a = .error msg) ∧
    (p ≠ [] → w.contains p = true → ∃ msg, w.add_file p d a = .error msg) ∧
    (p ≠ [] → ∃ w2, ((w.remove_file p).2).add_file p d a = .ok w2) := by
  refine ⟨?_, ?_, ?_⟩
  · intro h
    exact ⟨"File path cannot be empty", by simp [ArchiveWriter.add_file, h]⟩
  · intro hne hc
    refine ⟨"File already exists in archive", ?_⟩
    unfold ArchiveWriter.add_file
    rw [if_neg hne, if_pos hc]
  · intro hne
    have hc := contains_remove_file w p
    refine ⟨{ (w.remove_file p).2 with
        files := (w.remove_file p).2.files ++
          [{ path := p, data := d,
             align := if 0 < a then a else (w.remove_file p).2.default_alignment }] }, ?_⟩
    unfold ArchiveWriter.add_file
    rw [if_neg hne, if_neg (by simp [hc])]

/-- Witness for C6 at concrete writers: duplicate add fails, and remove
followed by add succeeds for the nonempty path `[97]`. -/
theorem claim_C6_add_remove_witness :
    (∃ msg, dupWriter.add_file [97] [2] 0 = .error msg) ∧
    (∃ w2, ((emptyWriter.remove_file [97]).2).add_file [97] [1] 0 = .ok w2) :=
  ⟨(claim_C6_add_remove dupWriter [97] [2] 0).2.1 (by decide) (by decide),
    (claim_C6_add_remove emptyWriter [97] [1] 0).2.2 (by decide)⟩

/-- Reader-side errors.  `format` is `ArchiveFormatException`, `notFound` is
`FileNotFoundException`, `io` is `IOError`.  `oob` marks a read the source
performs with no bounds check that would fall outside the mapped buffer —
undefined behaviour in the C++, surfaced as a distinguished marker here. -/
inductive RErr where
  | format (msg : String)
  | notFound
  | io
  | oob
  deriving DecidableEq

/-- Read of a `w`-byte integer at byte offset `pos` of the mapped buffer. -/
def readIntAt (nb : Bool) (e : Endianness) (D : List Nat) (pos w : Nat) : Nat :=
  read_with_endianness nb w (D.drop pos) e

/-- Model of `ArchiveReader::parse_header`: `u32 data_offset`, length-prefixed
identifier and version, with each check performed exactly where the source
checks (`error` iff the declared extent exceeds `data.size()`). -/
def parse_header (nb : Bool) (e : Endianness) (D : List Nat) :
    Except RErr (Nat × List Nat × List Nat) :=
  if D.length < 4 then .error (.format "File too small for header")
  else
    let data_offset := readIntAt nb e D 0 4
    if D.length < 4 + 8 then .error (.format "Incomplete identifier length")
    else
      let ident_length := readIntAt nb e D 4 8
      if D.length < 12 + ident_length then
        .error (.format "Identifier extends beyond file")
      else
        let ident := extract D 12 ident_length
        if D.length < 12 + ident_length + 8 then
          .error (.format "Incomplete version length")
        else
          let version_length := readIntAt nb e D (12 + ident_length) 8
          if D.length < 20 + ident_length + version_length then
            .error (.format "Version extends beyond file")
          else
            .ok (data_offset, ident, extract D (20 + ident_length) version_length)

/-- The entry loop of `ArchiveReader::parse_file_table`, iterating the
declared record count: length-prefixed path, `u64` size (both bounds-checked
like the source), then the `u32` alignment field, which the source reads with
no bounds check (`oob` when it would cross the end); alignment round-up, the
`offset + size` check (with the 64-bit wrap of the source's sum), and the
entry construction.  Returns the entries built so far (they are pushed into
the member vectors before any later failure), the final table position, the
final running offset, and the error if any. -/
def parseRows (nb : Bool) (e : Endianness) (thr : Nat) (strm : Bool)
    (D : List Nat) :
    Nat → Nat → Nat → (List ArchiveFile × Nat × Nat × Option RErr)
  | 0, pos, cur => ([], pos, cur, none)
  | n + 1, pos, cur =>
    if D.length < pos + 8 then
      ([], pos, cur, some (.format "Incomplete file path length"))
    else
      let path_length := readIntAt nb e D pos 8
      if D.length < pos + 8 + path_length then
        ([], pos + 8, cur, some (.format "File path extends beyond file"))
      else
        let fpath := extract D (pos + 8) path_length
        if D.length < pos + 8 + path_length + 8 then
          ([], pos + 8 + path_length, cur, some (.format "Incomplete file length"))
        else
          let file_size := readIntAt nb e D (pos + 8 + path_length) 8
          if D.length < pos + 8 + path_length + 8 + 4 then
            ([], pos + 8 + path_length + 8, cur, some .oob)
          else
            let file_align := readIntAt nb e D (pos + 8 + path_length + 8) 4
            let cur2 := alignUp cur file_align
            if D.length < (cur2 + file_size) % 2 ^ 64 then
              ([], pos + 8 + path_length + 8 + 4, cur2,
                some (.format "File extends beyond archive"))
            else
              let r := parseRows nb e thr strm D n (pos + 8 + path_length + 8 + 4)
                ((cur2 + file_size) % 2 ^ 64)
              (mkArchiveFile fpath cur2 file_size D thr strm :: r.1,
                r.2.1, r.2.2.1, r.2.2.2)

/-- Model of `ArchiveReader::parse_file_table`: the table position is
recomputed from the header field sizes; the `u64` record count is read with
no bounds check in the source (`oob` when it would cross the end), then the
records are parsed starting with running offset `data_offset`. -/
def parse_file_table (nb : Bool) (e : Endianness) (thr : Nat) (strm : Bool)
    (D : List Nat) (data_offset : Nat) (ident ver : List Nat) :
    List ArchiveFile × Option RErr :=
  let pos0 := 4 + 8 + ident.length + 8 + ver.length
  if D.length < pos0 + 8 then ([], some .oob)
  else
    let num_files := readIntAt nb e D pos0 8
    let r := parseRows nb e thr strm D num_files (pos0 + 8) data_offset
    (r.1, r.2.2.2)

/-- Observable reader state: `is_open_`, the parsed header strings, the entry
list (the path index is derived from it by `fileMapFind` below, mirroring the
overwrite-on-assignment `unordered_map`), and the mapping (`none` when the
`MemoryMappedFile` is closed). -/
structure ReaderState where
  is_open : Bool
  identifier : List Nat
  version : List Nat
  files : List ArchiveFile
  mapped : Option (List Nat)
  deriving DecidableEq

/-- Model of `ArchiveReader::open`.  `mapResult` is the outcome of
`mmap_file_.open`.  The source wraps the body in `try ... catch (const
IOError&) { close(); throw; }`: only an `IOError` runs `close()`; a format
error (or an unchecked out-of-bounds read) propagates with the mapping still
held and the entries pushed before the failure still in the vectors, while
`is_open_` is still false from the `close()` at entry.  `hid`/`hver` are the
header strings retained from before the call (`close()` never clears
`header_`; the partial assignment of `header_` by a failing `parse_header`
is not modelled — no claim reads those fields in that state). -/
def openReader (nb : Bool) (e : Endianness) (thr : Nat) (strm : Bool)
    (mapResult : Except String (List Nat)) (hid hver : List Nat) :
    Except RErr Unit × ReaderState :=
  match mapResult with
  | .error _ => (.error .io, ⟨false, hid, hver, [], none⟩)
  | .ok D =>
    match parse_header nb e D with
    | .error er => (.error er, ⟨false, hid, hver, [], some D⟩)
    | .ok (doff, idb, verb) =>
      match parse_file_table nb e thr strm D doff idb verb with
      | (es, some er) => (.error er, ⟨false, idb, verb, es, some D⟩)
      | (es, none) => (.ok (), ⟨true, idb, verb, es, some D⟩)

/-- Lookup in the path index.  `file_map_[path] = ptr` overwrites on
duplicate keys, so the last entry with a given path wins. -/
def fileMapFind : List ArchiveFile → List Nat → Option ArchiveFile
  | [], _ => none
  | f :: fs, p =>
    match fileMapFind fs p with
    | some g => some g
    | none => if f.path = p then some f else none

/-- Model of `ArchiveReader::contains`: non-throwing index probe. -/
def ReaderState.contains (st : ReaderState) (p : List Nat) : Bool :=
  (fileMapFind st.files p).isSome

/-- Model of `ArchiveReader::get_file`: indexed entry or not-found error. -/
def ReaderState.get_file (st : ReaderState) (p : List Nat) :
    Except RErr ArchiveFile :=
  match fileMapFind st.files p with
  | none => .error .notFound
  | some f => .ok f

/-- Model of `ArchiveReader::read_raw`: a span straight into the mapping at
the entry's offset with the entry's size, bypassing residency entirely. -/
def ReaderState.read_raw (st : ReaderState) (p : List Nat) :
    Except RErr (List Nat) :=
  match fileMapFind st.files p with
  | none => .error .notFound
  | some f => .ok (extract (st.mapped.getD []) f.offset f.size)

/-- Concrete 49-byte archive whose table declares two entries but whose
second row is missing: data offset 49, empty identifier and version, record
count 2, and one complete zero-size row with path `[120]`. -/
def bufPartialRow : List Nat :=
  [49, 0, 0, 0,
   0, 0, 0, 0, 0, 0, 0, 0,
   0, 0, 0, 0, 0, 0, 0, 0,
   2, 0, 0, 0, 0, 0, 0, 0,
   1, 0, 0, 0, 0, 0, 0, 0,
   120,
   0, 0, 0, 0, 0, 0, 0, 0,
   0, 0, 0, 0]

/-- C3 counterexample.  The claim says every failing `open` leaves the reader
closed with an empty entry list and the mapping released.  On the empty
buffer `open` raises a format error yet the mapping is still held; on
`bufPartialRow` it raises a format error with the mapping held and one entry
still in the list. -/
theorem claim_C3_counterexample :
    (openReader false .Big 0 false (.ok []) [] []).1
        = .error (.format "File too small for header") ∧
    (openReader false .Big 0 false (.ok []) [] []).2.is_open = false ∧
    (openReader false .Big 0 false (.ok []) [] []).2.mapped ≠ none ∧
    (openReader false .Native 0 false (.ok bufPartialRow) [] []).1
        = .error (.format "Incomplete file path length") ∧
    (openReader false .Native 0 false (.ok bufPartialRow) [] []).2.files.length = 1 ∧
    (openReader false .Native 0 false (.ok bufPartialRow) [] []).2.mapped
        = some bufPartialRow := by
  refine ⟨rfl, rfl, ?_, rfl, rfl, rfl⟩
  intro h
  simp [openReader, parse_header] at h

/-- C3 amended (proved).  When the mapping itself fails (`IOError`), the
reader is left fully closed.  When parsing fails after a successful mapping,
`is_open()` is false but the mapping is retained (and entries pushed before
the failure remain in the list) until the next `close()`. -/
theorem claim_C3_error_state (nb : Bool) (e : Endianness) (thr : Nat)
    (strm : Bool) (hid hver : List Nat) :
    (∀ msg, openReader nb e thr strm (.error msg) hid hver
        = (.error .io, ⟨false, hid, hver, [], none⟩)) ∧
    (∀ D er st, openReader nb e thr strm (.ok D) hid hver = (.error er, st) →
      st.is_open = false ∧ st.mapped = some D) := by
  refine ⟨fun msg => rfl, ?_⟩
  intro D er st h
  cases hph : parse_header nb e D with
  | error e2 =>
    simp only [openReader, hph] at h
    rw [Prod.mk.injEq] at h
    refine ⟨?_, ?_⟩ <;> rw [← h.2]
  | ok trip =>
    obtain ⟨doff, idb, verb⟩ := trip
    cases hpt : parse_file_table nb e thr strm D doff idb verb with
    | mk es oerr =>
      cases oerr with
      | some e3 =>
        simp only [openReader, hph, hpt] at h
        rw [Prod.mk.injEq] at h
        refine ⟨?_, ?_⟩ <;> rw [← h.2]
      | none =>
        simp only [openReader, hph, hpt] at h
        rw [Prod.mk.injEq] at h
        exact absurd h.1 (by simp)

/-- Witness for C3 amended at concrete inputs: a failed mapping, and a
too-small buffer. -/
theorem claim_C3_error_state_witness :
    openReader false .Big 0 false (.error "no such file") [] []
        = (.error .io, ⟨false, [], [], [], none⟩) ∧
    ((⟨false, [], [], [], some [1, 2, 3]⟩ : ReaderState).is_open = false ∧
      (⟨false, [], [], [], some [1, 2, 3]⟩ : ReaderState).mapped = some [1, 2, 3]) :=
  ⟨(claim_C3_error_state false .Big 0 false [] []).1 "no such file",
    (claim_C3_error_state false .Big 0 false [] []).2 [1, 2, 3]
      (.format "File too small for header") _ rfl⟩

/-- Residency refresh used to state caching-independence of `read_raw`. -/
def withResidency (st : ReaderState) (rs : ArchiveFile → DataHolder)
    (ld : ArchiveFile → Bool) : ReaderState :=
  { st with files := st.files.map fun f =>
      { f with data_holder := rs f, is_loaded := ld f } }

theorem fileMapFind_withResidency (fs : List ArchiveFile) (p : List Nat)
    (rs : ArchiveFile → DataHolder) (ld : ArchiveFile → Bool) :
    fileMapFind (fs.map fun f => { f with data_holder := rs f, is_loaded := ld f }) p
      = Option.map (fun f => { f with data_holder := rs f, is_loaded := ld f })
          (fileMapFind fs p) := by
  induction fs with
  | nil => rfl
  | cons f fs ih =>
    simp only [List.map_cons, fileMapFind, ih]
    cases fileMapFind fs p with
    | some g => rfl
    | none =>
      simp only [Option.map_none]
      by_cases hp : f.path = p
      · simp [hp]
      · simp [hp]

/-- C7 (confirmed).  On an open reader, a missing path makes `get_file` and
`read_raw` fail with the not-found error (both are pure queries of the model
state, mirroring that the source versions mutate nothing) while `contains`
returns `false`; for a present path `contains` is `true` and `read_raw`
returns the span at the entry's offset of the entry's size straight from the
mapping — of length exactly the entry's size whenever the entry lies inside
the mapping — regardless of any entry's residency state. -/
theorem claim_C7_lookup (st : ReaderState) (p : List Nat)
    (_hopen : st.is_open = true) :
    (fileMapFind st.files p = none →
      st.get_file p = .error .notFound ∧ st.read_raw p = .error .notFound ∧
      st.contains p = false) ∧
    (∀ f, fileMapFind st.files p = some f →
      st.contains p = true ∧
      st.read_raw p = .ok (extract (st.mapped.getD []) f.offset f.size) ∧
      (f.offset + f.size ≤ (st.mapped.getD []).length →
        (extract (st.mapped.getD []) f.offset f.size).length = f.size)) ∧
    (∀ rs ld, (withResidency st rs ld).read_raw p = st.read_raw p) := by
  refine ⟨?_, ?_, ?_⟩
  · intro h
    refine ⟨?_, ?_, ?_⟩
    · simp [ReaderState.get_file, h]
    · simp [ReaderState.read_raw, h]
    · simp [ReaderState.contains, h]
  · intro f h
    refine ⟨?_, ?_, ?_⟩
    · simp [ReaderState.contains, h]
    · simp [ReaderState.read_raw, h]
    · intro hin
      simp only [extract, List.length_take, List.length_drop]
      omega
  · intro rs ld
    simp only [ReaderState.read_raw, withResidency, fileMapFind_withResidency]
    cases fileMapFind st.files p with
    | none => rfl
    | some f => rfl

/-- Open reader with one two-byte entry at path `[97]` over the three-byte
mapping `[9, 8, 7]`. -/
def oneEntryReader : ReaderState :=
  ⟨true, [], [], [mkArchiveFile [97] 0 2 [9, 8, 7] 10 false], some [9, 8, 7]⟩

/-- Witness for C7: a one-entry open reader probed at a missing and at the
present path. -/
theorem claim_C7_lookup_witness :
    (oneEntryReader.get_file [98] = .error .notFound ∧
      oneEntryReader.read_raw [98] = .error .notFound ∧
      oneEntryReader.contains [98] = false) ∧
    oneEntryReader.contains [97] = true ∧
    oneEntryReader.read_raw [97] = .ok [9, 8] :=
  ⟨(claim_C7_lookup oneEntryReader [98] rfl).1 (by decide),
    ((claim_C7_lookup oneEntryReader [97] rfl).2.1
        (mkArchiveFile [97] 0 2 [9, 8, 7] 10 false) (by decide)).1,
    ((claim_C7_lookup oneEntryReader [97] rfl).2.1
        (mkArchiveFile [97] 0 2 [9, 8, 7] 10 false) (by decide)).2.1⟩

theorem extract_of_append {D A seg C : List Nat} {q n : Nat}
    (hD : D = A ++ (seg ++ C)) (hpos : q = A.length) (hn : n = seg.length) :
    extract D q n = seg := by
  subst hD hpos hn
  unfold extract
  rw [List.drop_left, List.take_left]

theorem readIntAt_of_append {nb : Bool} {e : Endianness} {D A C : List Nat}
    {v w q : Nat}
    (hD : D = A ++ (write_with_endianness nb w v e ++ C))
    (hpos : q = A.length) :
    readIntAt nb e D q w = v % 256 ^ w := by
  subst hD hpos
  unfold readIntAt
  rw [List.drop_left]
  exact read_write_with_endianness nb w v e C

theorem finalCur_le {l : List FileEntry} :
    ∀ {c : Nat}, c + remSum l < 2 ^ 32 → finalCur c l ≤ c + remSum l := by
  induction l with
  | nil => intro c _; simp [finalCur, remSum]
  | cons e fs ih =>
    intro c h
    simp only [remSum] at h
    have h1 : c + e.align - 1 < 2 ^ 32 := by omega
    have h2 : alignUp c e.align ≤ c + e.align := alignUp_le_add h1
    have h4 : alignUp c e.align + e.data.length + remSum fs < 2 ^ 32 := by omega
    have := ih (c := alignUp c e.align + e.data.length) h4
    simp only [finalCur, remSum]
    omega

theorem length_le_rowSize (fs : List FileEntry) : fs.length ≤ rowSize fs := by
  induction fs with
  | nil => simp [rowSize]
  | cons f fs ih => simp only [List.length_cons, rowSize]; omega

theorem calculate_header_size_eq (w : ArchiveWriter) :
    w.calculate_header_size
      = 28 + w.identifier.length + w.version.length + rowSize w.files := by
  unfold ArchiveWriter.calculate_header_size
  omega

/-- The entries the table loop constructs for rows `fs` starting at running
offset `cur`: each at the aligned offset, with the declared size, borrowing
the mapped buffer `D`. -/
def layoutFiles (D : List Nat) (thr : Nat) (strm : Bool) :
    Nat → List FileEntry → List ArchiveFile
  | _, [] => []
  | cur, f :: fs =>
    mkArchiveFile f.path (alignUp cur f.align) f.data.length D thr strm ::
      layoutFiles D thr strm (alignUp cur f.align + f.data.length) fs

/-- Parsing the serialized table reproduces the layout: given the buffer
decomposed both at the table position (`Y`-side) and at the data cursor
(`X`-side, whose data section ends the buffer), the row loop parses all rows
without error, constructs exactly the layout entries, and leaves the table
position and running offset at their computed values. -/
theorem parseRows_serialized (nb : Bool) (e : Endianness) (thr : Nat)
    (strm : Bool) (D : List Nat) :
    ∀ (fs : List FileEntry) (Y Z X : List Nat) (pos cur : Nat),
      D = Y ++ (tableBytes nb e fs ++ Z) →
      pos = Y.length →
      D = X ++ dataSectionFrom cur fs →
      cur = X.length →
      cur + remSum fs < 2 ^ 32 →
      parseRows nb e thr strm D fs.length pos cur
        = (layoutFiles D thr strm cur fs, pos + rowSize fs, finalCur cur fs, none) := by
  intro fs
  induction fs with
  | nil =>
    intro Y Z X pos cur hY hpos hX hcur hsm
    simp [parseRows, layoutFiles, rowSize, finalCur]
  | cons f fs ih =>
    intro Y Z X pos cur hY hpos hX hcur hsm
    have hsm0 : cur + (f.align + f.data.length + remSum fs) < 2 ^ 32 := hsm
    have halign1 : cur + f.align - 1 < 2 ^ 32 := by omega
    have hge := alignUp_ge halign1
    have hle := alignUp_le_add halign1
    have hsm2 : (alignUp cur f.align + f.data.length) + remSum fs < 2 ^ 32 := by omega
    have hY' : D = Y ++ (write_with_endianness nb 8 f.path.length e ++
        (f.path ++ (write_with_endianness nb 8 f.data.length e ++
          (write_with_endianness nb 4 f.align e ++ (tableBytes nb e fs ++ Z))))) := by
      simpa [tableBytes, rowBytes, List.append_assoc] using hY
    have hX' : D = X ++ (List.replicate (alignUp cur f.align - cur) 0 ++
        (f.data ++ dataSectionFrom (alignUp cur f.align + f.data.length) fs)) := by
      simpa [dataSectionFrom, List.append_assoc] using hX
    have hDlen : D.length = pos + (8 + (f.path.length + (8 + (4 +
        ((tableBytes nb e fs).length + Z.length))))) := by
      subst hpos
      rw [hY']
      simp [List.length_append, length_write_with_endianness]
    have hlrest := length_dataSectionFrom
      (c := alignUp cur f.align + f.data.length) (l := fs) hsm2
    have hfc := finalCur_le (c := alignUp cur f.align + f.data.length) hsm2
    have hDlenX : D.length = cur + ((alignUp cur f.align - cur) + (f.data.length +
        (dataSectionFrom (alignUp cur f.align + f.data.length) fs).length)) := by
      subst hcur
      rw [hX']
      simp [List.length_append, List.length_replicate]
    have hDsmall : D.length < 2 ^ 32 := by omega
    have hpow8 : (256 : Nat) ^ 8 = 2 ^ 64 := by norm_num
    have hpow4 : (256 : Nat) ^ 4 = 2 ^ 32 := by norm_num
    have hplt : f.path.length < 2 ^ 64 := by omega
    have hv1 : readIntAt nb e D pos 8 = f.path.length := by
      rw [readIntAt_of_append hY' hpos, hpow8, Nat.mod_eq_of_lt hplt]
    have hv2 : extract D (pos + 8) f.path.length = f.path := by
      refine extract_of_append (A := Y ++ write_with_endianness nb 8 f.path.length e)
        (C := write_with_endianness nb 8 f.data.length e ++
          (write_with_endianness nb 4 f.align e ++ (tableBytes nb e fs ++ Z)))
        ?_ ?_ rfl
      · simpa [List.append_assoc] using hY'
      · simp [hpos, length_write_with_endianness]
    have hv3 : readIntAt nb e D (pos + 8 + f.path.length) 8 = f.data.length := by
      rw [readIntAt_of_append
        (A := (Y ++ write_with_endianness nb 8 f.path.length e) ++ f.path)
        (by simpa [List.append_assoc] using hY')
        (by simp [hpos, length_write_with_endianness]; omega), hpow8]
      exact Nat.mod_eq_of_lt (by omega)
    have hv4 : readIntAt nb e D (pos + 8 + f.path.length + 8) 4 = f.align := by
      rw [readIntAt_of_append
        (A := ((Y ++ write_with_endianness nb 8 f.path.length e) ++ f.path)
          ++ write_with_endianness nb 8 f.data.length e)
        (by simpa [List.append_assoc] using hY')
        (by simp [hpos, length_write_with_endianness]; omega), hpow4]
      exact Nat.mod_eq_of_lt (by omega)
    have hc1 : ¬ D.length < pos + 8 := by omega
    have hc2 : ¬ D.length < pos + 8 + f.path.length := by omega
    have hc3 : ¬ D.length < pos + 8 + f.path.length + 8 := by omega
    have hc4 : ¬ D.length < pos + 8 + f.path.length + 8 + 4 := by omega
    have hbnd : (alignUp cur f.align + f.data.length) % 2 ^ 64
        = alignUp cur f.align + f.data.length :=
      Nat.mod_eq_of_lt (by omega)
    have hc5 : ¬ D.length < alignUp cur f.align + f.data.length := by omega
    rw [List.length_cons]
    simp only [parseRows, hv1, hv2, hv3, hv4]
    rw [if_neg hc1, if_neg hc2, if_neg hc3, if_neg hc4, hbnd, if_neg hc5]
    rw [ih ((((Y ++ write_with_endianness nb 8 f.path.length e) ++ f.path)
          ++ write_with_endianness nb 8 f.data.length e)
          ++ write_with_endianness nb 4 f.align e) Z
        ((X ++ List.replicate (alignUp cur f.align - cur) 0) ++ f.data)
        (pos + 8 + f.path.length + 8 + 4) (alignUp cur f.align + f.data.length)
        (by simpa [List.append_assoc] using hY')
        (by simp [hpos, length_write_with_endianness]; omega)
        (by simpa [List.append_assoc] using hX')
        (by simp [List.length_append, List.length_replicate]; omega)
        hsm2]
    simp only [layoutFiles, rowSize, finalCur, Prod.mk.injEq, and_true, true_and]
    omega

theorem length_write_to_memory (nb : Bool) (w : ArchiveWriter)
    (hsmall : smallBound w < 2 ^ 32) :
    (write_to_memory nb w).length = finalCur w.calculate_header_size w.files := by
  unfold smallBound at hsmall
  have hlen := length_dataSectionFrom (c := w.calculate_header_size) hsmall
  have hge := finalCur_ge (c := w.calculate_header_size) hsmall
  have hhs := calculate_header_size_eq w
  simp only [write_to_memory, List.length_append, length_headerBytes,
    length_tableBytes, hlen]
  omega

/-- Right-associated decomposition of the serialized buffer into its header
fields, table and data region. -/
theorem write_to_memory_decomp (nb : Bool) (w : ArchiveWriter) :
    write_to_memory nb w
      = write_with_endianness nb 4 w.calculate_header_size w.endianness ++
        (write_with_endianness nb 8 w.identifier.length w.endianness ++
          (w.identifier ++
            (write_with_endianness nb 8 w.version.length w.endianness ++
              (w.version ++
                (write_with_endianness nb 8 w.files.length w.endianness ++
                  (tableBytes nb w.endianness w.files ++
                    dataSectionFrom w.calculate_header_size w.files)))))) := by
  simp [write_to_memory, headerBytes, List.append_assoc]

theorem header_value_data_offset (nb : Bool) (w : ArchiveWriter)
    (hsmall : smallBound w < 2 ^ 32) :
    readIntAt nb w.endianness (write_to_memory nb w) 0 4
      = w.calculate_header_size := by
  have hrem : w.calculate_header_size + remSum w.files < 2 ^ 32 := hsmall
  have hpow4 : (256 : Nat) ^ 4 = 2 ^ 32 := by norm_num
  rw [readIntAt_of_append (A := []) (q := 0)
    (by simpa using write_to_memory_decomp nb w) rfl, hpow4]
  exact Nat.mod_eq_of_lt (by omega)

theorem header_value_ident_length (nb : Bool) (w : ArchiveWriter)
    (hsmall : smallBound w < 2 ^ 32) :
    readIntAt nb w.endianness (write_to_memory nb w) 4 8
      = w.identifier.length := by
  have hrem : w.calculate_header_size + remSum w.files < 2 ^ 32 := hsmall
  have hhs := calculate_header_size_eq w
  have hpow8 : (256 : Nat) ^ 8 = 2 ^ 64 := by norm_num
  rw [readIntAt_of_append
    (A := write_with_endianness nb 4 w.calculate_header_size w.endianness)
    (by simpa [List.append_assoc] using write_to_memory_decomp nb w)
    (by simp [length_write_with_endianness]), hpow8]
  exact Nat.mod_eq_of_lt (by omega)

theorem header_value_ident (nb : Bool) (w : ArchiveWriter) :
    extract (write_to_memory nb w) 12 w.identifier.length = w.identifier := by
  refine extract_of_append
    (A := write_with_endianness nb 4 w.calculate_header_size w.endianness ++
      write_with_endianness nb 8 w.identifier.length w.endianness)
    (C := write_with_endianness nb 8 w.version.length w.endianness ++
      (w.version ++
        (write_with_endianness nb 8 w.files.length w.endianness ++
          (tableBytes nb w.endianness w.files ++
            dataSectionFrom w.calculate_header_size w.files))))
    ?_ ?_ rfl
  · simpa [List.append_assoc] using write_to_memory_decomp nb w
  · simp [length_write_with_endianness]

theorem header_value_version_length (nb : Bool) (w : ArchiveWriter)
    (hsmall : smallBound w < 2 ^ 32) :
    readIntAt nb w.endianness (write_to_memory nb w)
      (12 + w.identifier.length) 8 = w.version.length := by
  have hrem : w.calculate_header_size + remSum w.files < 2 ^ 32 := hsmall
  have hhs := calculate_header_size_eq w
  have hpow8 : (256 : Nat) ^ 8 = 2 ^ 64 := by norm_num
  rw [readIntAt_of_append
    (A := (write_with_endianness nb 4 w.calculate_header_size w.endianness ++
      write_with_endianness nb 8 w.identifier.length w.endianness) ++ w.identifier)
    (by simpa [List.append_assoc] using write_to_memory_decomp nb w)
    (by simp [length_write_with_endianness]; omega), hpow8]
  exact Nat.mod_eq_of_lt (by omega)

theorem header_value_version (nb : Bool) (w : ArchiveWriter) :
    extract (write_to_memory nb w) (20 + w.identifier.length)
      w.version.length = w.version := by
  refine extract_of_append
    (A := ((write_with_endianness nb 4 w.calculate_header_size w.endianness ++
      write_with_endianness nb 8 w.identifier.length w.endianness) ++ w.identifier)
      ++ write_with_endianness nb 8 w.version.length w.endianness)
    (C := write_with_endianness nb 8 w.files.length w.endianness ++
      (tableBytes nb w.endianness w.files ++
        dataSectionFrom w.calculate_header_size w.files))
    ?_ ?_ rfl
  · simpa [List.append_assoc] using write_to_memory_decomp nb w
  · simp [length_write_with_endianness]; omega

theorem header_value_num_files (nb : Bool) (w : ArchiveWriter)
    (hsmall : smallBound w < 2 ^ 32) :
    readIntAt nb w.endianness (write_to_memory nb w)
      (4 + 8 + w.identifier.length + 8 + w.version.length) 8
      = w.files.length := by
  have hrem : w.calculate_header_size + remSum w.files < 2 ^ 32 := hsmall
  have hhs := calculate_header_size_eq w
  have hnrow := length_le_rowSize w.files
  have hpow8 : (256 : Nat) ^ 8 = 2 ^ 64 := by norm_num
  rw [readIntAt_of_append
    (A := (((write_with_endianness nb 4 w.calculate_header_size w.endianness ++
      write_with_endianness nb 8 w.identifier.length w.endianness) ++ w.identifier)
      ++ write_with_endianness nb 8 w.version.length w.endianness) ++ w.version)
    (by simpa [List.append_assoc] using write_to_memory_decomp nb w)
    (by simp [length_write_with_endianness]; omega), hpow8]
  exact Nat.mod_eq_of_lt (by omega)

theorem parse_header_serialized (nb : Bool) (w : ArchiveWriter)
    (hsmall : smallBound w < 2 ^ 32) :
    parse_header nb w.endianness (write_to_memory nb w)
      = .ok (w.calculate_header_size, w.identifier, w.version) := by
  have hrem : w.calculate_header_size + remSum w.files < 2 ^ 32 := hsmall
  have hfc := finalCur_le (c := w.calculate_header_size) hrem
  have hge := finalCur_ge (c := w.calculate_header_size) hrem
  have hhs := calculate_header_size_eq w
  have hBlen := length_write_to_memory nb w hsmall
  have hv0 := header_value_data_offset nb w hsmall
  have hv1 := header_value_ident_length nb w hsmall
  have hv2 := header_value_ident nb w
  have hv3 := header_value_version_length nb w hsmall
  have hv4 := header_value_version nb w
  have hc0 : ¬ (write_to_memory nb w).length < 4 := by omega
  have hc1 : ¬ (write_to_memory nb w).length < 4 + 8 := by omega
  have hc2 : ¬ (write_to_memory nb w).length < 12 + w.identifier.length := by omega
  have hc3 : ¬ (write_to_memory nb w).length < 12 + w.identifier.length + 8 := by
    omega
  have hc4 : ¬ (write_to_memory nb w).length
      < 20 + w.identifier.length + w.version.length := by omega
  simp only [parse_header, hv0, hv1, hv2, hv3, hv4]
  rw [if_neg hc0, if_neg hc1, if_neg hc2, if_neg hc3, if_neg hc4]

theorem parse_file_table_serialized (nb : Bool) (w : ArchiveWriter)
    (thr : Nat) (strm : Bool) (hsmall : smallBound w < 2 ^ 32) :
    parse_file_table nb w.endianness thr strm (write_to_memory nb w)
        w.calculate_header_size w.identifier w.version
      = (layoutFiles (write_to_memory nb w) thr strm w.calculate_header_size
          w.files, none) := by
  have hrem : w.calculate_header_size + remSum w.files < 2 ^ 32 := hsmall
  have hfc := finalCur_le (c := w.calculate_header_size) hrem
  have hge := finalCur_ge (c := w.calculate_header_size) hrem
  have hhs := calculate_header_size_eq w
  have hBlen := length_write_to_memory nb w hsmall
  have hnrow := length_le_rowSize w.files
  have hpow8 : (256 : Nat) ^ 8 = 2 ^ 64 := by norm_num
  have hB : write_to_memory nb w
      = write_with_endianness nb 4 w.calculate_header_size w.endianness ++
        (write_with_endianness nb 8 w.identifier.length w.endianness ++
          (w.identifier ++
            (write_with_endianness nb 8 w.version.length w.endianness ++
              (w.version ++
                (write_with_endianness nb 8 w.files.length w.endianness ++
                  (tableBytes nb w.endianness w.files ++
                    dataSectionFrom w.calculate_header_size w.files)))))) := by
    simp [write_to_memory, headerBytes, List.append_assoc]
  have hvn : readIntAt nb w.endianness (write_to_memory nb w)
      (4 + 8 + w.identifier.length + 8 + w.version.length) 8
      = w.files.length := by
    rw [readIntAt_of_append
      (A := (((write_with_endianness nb 4 w.calculate_header_size w.endianness ++
        write_with_endianness nb 8 w.identifier.length w.endianness) ++ w.identifier)
        ++ write_with_endianness nb 8 w.version.length w.endianness) ++ w.version)
      (by simpa [List.append_assoc] using hB)
      (by simp [length_write_with_endianness]; omega), hpow8]
    exact Nat.mod_eq_of_lt (by omega)
  have hcn : ¬ (write_to_memory nb w).length
      < 4 + 8 + w.identifier.length + 8 + w.version.length + 8 := by omega
  have hrows := parseRows_serialized nb w.endianness thr strm (write_to_memory nb w)
    w.files (headerBytes nb w) (dataSectionFrom w.calculate_header_size w.files)
    (headerBytes nb w ++ tableBytes nb w.endianness w.files)
    (4 + 8 + w.identifier.length + 8 + w.version.length + 8) w.calculate_header_size
    (by simp [write_to_memory, List.append_assoc])
    (by simp [length_headerBytes]; omega)
    (by simp [write_to_memory, List.append_assoc])
    (by simp [List.length_append, length_headerBytes, length_tableBytes]; omega)
    hrem
  simp only [parse_file_table, hvn]
  rw [if_neg hcn, hrows]

theorem openReader_serialized (nb : Bool) (w : ArchiveWriter) (thr : Nat)
    (strm : Bool) (hid hver : List Nat) (hsmall : smallBound w < 2 ^ 32) :
    openReader nb w.endianness thr strm (.ok (write_to_memory nb w)) hid hver
      = (.ok (), ⟨true, w.identifier, w.version,
          layoutFiles (write_to_memory nb w) thr strm w.calculate_header_size
            w.files,
          some (write_to_memory nb w)⟩) := by
  simp only [openReader, parse_header_serialized nb w hsmall,
    parse_file_table_serialized nb w thr strm hsmall]

@[simp]
theorem mkArchiveFile_path (p : List Nat) (off sz : Nat) (D : List Nat)
    (thr : Nat) (strm : Bool) :
    (mkArchiveFile p off sz D thr strm).path = p := rfl

@[simp]
theorem mkArchiveFile_offset (p : List Nat) (off sz : Nat) (D : List Nat)
    (thr : Nat) (strm : Bool) :
    (mkArchiveFile p off sz D thr strm).offset = off := rfl

@[simp]
theorem mkArchiveFile_size (p : List Nat) (off sz : Nat) (D : List Nat)
    (thr : Nat) (strm : Bool) :
    (mkArchiveFile p off sz D thr strm).size = sz := rfl

theorem length_layoutFiles (D : List Nat) (thr : Nat) (strm : Bool) :
    ∀ (cur : Nat) (fs : List FileEntry),
      (layoutFiles D thr strm cur fs).length = fs.length := by
  intro cur fs
  induction fs generalizing cur with
  | nil => rfl
  | cons f fs ih => simp [layoutFiles, ih]

/-- Every layout entry's span into the buffer is exactly its source bytes:
the data section decomposes entry by entry at the aligned offsets. -/
theorem layout_content (D : List Nat) (thr : Nat) (strm : Bool) :
    ∀ (fs : List FileEntry) (X : List Nat) (cur : Nat),
      D = X ++ dataSectionFrom cur fs →
      cur = X.length →
      cur + remSum fs < 2 ^ 32 →
      List.Forall₂ (fun (g : ArchiveFile) (fe : FileEntry) =>
        g.path = fe.path ∧ g.size = fe.data.length ∧
          extract D g.offset g.size = fe.data)
        (layoutFiles D thr strm cur fs) fs := by
  intro fs
  induction fs with
  | nil =>
    intro X cur _ _ _
    simp [layoutFiles]
  | cons f fs ih =>
    intro X cur hX hcur hsm
    have hsm0 : cur + (f.align + f.data.length + remSum fs) < 2 ^ 32 := hsm
    have halign1 : cur + f.align - 1 < 2 ^ 32 := by omega
    have hge := alignUp_ge halign1
    have hle := alignUp_le_add halign1
    have hsm2 : (alignUp cur f.align + f.data.length) + remSum fs < 2 ^ 32 := by
      omega
    have hX' : D = X ++ (List.replicate (alignUp cur f.align - cur) 0 ++
        (f.data ++ dataSectionFrom (alignUp cur f.align + f.data.length) fs)) := by
      simpa [dataSectionFrom, List.append_assoc] using hX
    refine List.Forall₂.cons ⟨rfl, rfl, ?_⟩ ?_
    · exact extract_of_append
        (A := X ++ List.replicate (alignUp cur f.align - cur) 0)
        (C := dataSectionFrom (alignUp cur f.align + f.data.length) fs)
        (by simpa [List.append_assoc] using hX')
        (by simp [List.length_append, List.length_replicate]; omega) rfl
    · exact ih ((X ++ List.replicate (alignUp cur f.align - cur) 0) ++ f.data)
        (alignUp cur f.align + f.data.length)
        (by simpa [List.append_assoc] using hX')
        (by simp [List.length_append, List.length_replicate]; omega)
        hsm2

theorem fileMapFind_eq_none {gs : List ArchiveFile} {p : List Nat}
    (h : ∀ g ∈ gs, g.path ≠ p) : fileMapFind gs p = none := by
  induction gs with
  | nil => rfl
  | cons g gs ih =>
    simp only [fileMapFind, ih fun x hx => h x (List.mem_cons_of_mem _ hx)]
    rw [if_neg (h g (List.mem_cons_self g gs))]

theorem forall₂_mem_left {R : ArchiveFile → FileEntry → Prop} :
    ∀ {gs : List ArchiveFile} {fs : List FileEntry},
      List.Forall₂ R gs fs → ∀ g ∈ gs, ∃ fe ∈ fs, R g fe := by
  intro gs fs hall
  induction hall with
  | nil => intro g hg; simp at hg
  | cons h₁ h₂ ih =>
    intro g hg
    rcases List.mem_cons.mp hg with rfl | hg'
    · exact ⟨_, List.mem_cons_self .., h₁⟩
    · obtain ⟨fe, hfe, hR⟩ := ih g hg'
      exact ⟨fe, List.mem_cons_of_mem _ hfe, hR⟩

/-- With pairwise-distinct paths, the overwrite-on-insert path index resolves
each source entry's path to its related layout entry. -/
theorem fileMapFind_of_forall₂ {R : ArchiveFile → FileEntry → Prop}
    (hpath : ∀ g fe, R g fe → g.path = fe.path) :
    ∀ {gs : List ArchiveFile} {fs : List FileEntry},
      List.Forall₂ R gs fs →
      fs.Pairwise (fun a b => a.path ≠ b.path) →
      ∀ fe ∈ fs, ∃ g, fileMapFind gs fe.path = some g ∧ R g fe := by
  intro gs fs hall
  induction hall with
  | nil => intro _ fe hfe; simp at hfe
  | @cons g0 fe0 gs' fs' h₁ h₂ ih =>
    intro hpw fe hfe
    rw [List.pairwise_cons] at hpw
    rcases List.mem_cons.mp hfe with rfl | hfe'
    · have hnone : fileMapFind gs' fe.path = none := by
        apply fileMapFind_eq_none
        intro g' hg'
        obtain ⟨fe', hfe', hR'⟩ := forall₂_mem_left h₂ g' hg'
        rw [hpath _ _ hR']
        exact fun hcontra => hpw.1 fe' hfe' hcontra.symm
      simp only [fileMapFind, hnone]
      rw [if_pos (hpath _ _ h₁)]
      exact ⟨_, rfl, h₁⟩
    · obtain ⟨g', hfind, hR'⟩ := ih hpw.2 fe hfe'
      refine ⟨g', ?_, hR'⟩
      simp only [fileMapFind, hfind]

/-- C1 (confirmed).  Serializing any writer table with pairwise-distinct
paths and reopening the buffer succeeds and reproduces the identifier, the
version and the entry count; and for every source entry, looking its path up
in the reader yields an entry whose declared size is the source byte count
and whose `read_raw` bytes are exactly the source bytes.  The `smallBound`
hypothesis is the machine-width side condition: all layout arithmetic stays
below `2^32` (the width of the `data_offset` field and of the alignment
mask). -/
theorem claim_C1_round_trip (nb : Bool) (w : ArchiveWriter) (thr : Nat)
    (strm : Bool) (hid hver : List Nat)
    (huniq : w.files.Pairwise fun a b => a.path ≠ b.path)
    (hsmall : smallBound w < 2 ^ 32) :
    (openReader nb w.endianness thr strm (.ok (write_to_memory nb w)) hid hver).1
        = .ok () ∧
    (openReader nb w.endianness thr strm (.ok (write_to_memory nb w)) hid
        hver).2.is_open = true ∧
    (openReader nb w.endianness thr strm (.ok (write_to_memory nb w)) hid
        hver).2.identifier = w.identifier ∧
    (openReader nb w.endianness thr strm (.ok (write_to_memory nb w)) hid
        hver).2.version = w.version ∧
    (openReader nb w.endianness thr strm (.ok (write_to_memory nb w)) hid
        hver).2.files.length = w.files.length ∧
    ∀ fe ∈ w.files, ∃ g,
      fileMapFind (openReader nb w.endianness thr strm
          (.ok (write_to_memory nb w)) hid hver).2.files fe.path = some g ∧
      g.size = fe.data.length ∧
      (openReader nb w.endianness thr strm (.ok (write_to_memory nb w)) hid
          hver).2.read_raw fe.path = .ok fe.data := by
  have hrem : w.calculate_header_size + remSum w.files < 2 ^ 32 := hsmall
  rw [openReader_serialized nb w thr strm hid hver hsmall]
  refine ⟨rfl, rfl, rfl, rfl, ?_, ?_⟩
  · exact length_layoutFiles _ _ _ _ _
  · intro fe hfe
    have hcontent := layout_content (write_to_memory nb w) thr strm w.files
      (headerBytes nb w ++ tableBytes nb w.endianness w.files)
      w.calculate_header_size
      (by simp [write_to_memory, List.append_assoc])
      (by
        simp [List.length_append, length_headerBytes, length_tableBytes]
        have := calculate_header_size_eq w
        omega)
      hrem
    obtain ⟨g, hfind, hR⟩ :=
      fileMapFind_of_forall₂ (fun g fe h => h.1) hcontent huniq fe hfe
    refine ⟨g, hfind, hR.2.1, ?_⟩
    simp only [ReaderState.read_raw, hfind, Option.getD_some]
    rw [hR.2.2]

/-- Witness for C1 at the concrete one-entry scenario writer. -/
theorem claim_C1_round_trip_witness :
    (scenarioWriter.files.Pairwise fun a b => a.path ≠ b.path) ∧
    smallBound scenarioWriter < 2 ^ 32 ∧
    (openReader false scenarioWriter.endianness 0 false
        (.ok (write_to_memory false scenarioWriter)) [] []).1 = .ok () ∧
    (openReader false scenarioWriter.endianness 0 false
        (.ok (write_to_memory false scenarioWriter)) [] []).2.identifier
      = scenarioWriter.identifier :=
  ⟨by simp [scenarioWriter, scenarioEmptyWriter], by decide,
    (claim_C1_round_trip false scenarioWriter 0 false [] []
      (by simp [scenarioWriter, scenarioEmptyWriter]) (by decide)).1,
    (claim_C1_round_trip false scenarioWriter 0 false [] []
      (by simp [scenarioWriter, scenarioEmptyWriter]) (by decide)).2.2.1⟩

theorem extract_take {D : List Nat} {pos n t : Nat} (h : pos + n ≤ t) :
    extract (D.take t) pos n = extract D pos n := by
  unfold extract
  rw [List.drop_take, List.take_take, Nat.min_eq_left (by omega)]

theorem readIntAt_take {nb : Bool} {e : Endianness} {D : List Nat}
    {pos w t : Nat} (h : pos + w ≤ t) :
    readIntAt nb e (D.take t) pos w = readIntAt nb e D pos w := by
  unfold readIntAt read_with_endianness
  rw [List.drop_take, List.take_take, Nat.min_eq_left (by omega)]

/-- Parsing the header of a truncation of a serialized archive either fails
or returns the same header triple after consuming at least the header
fields. -/
theorem parse_header_take_serialized (nb : Bool) (w : ArchiveWriter) (t : Nat)
    (hsmall : smallBound w < 2 ^ 32)
    (ht : t ≤ (write_to_memory nb w).length) :
    (∃ er, parse_header nb w.endianness ((write_to_memory nb w).take t)
        = .error er) ∨
    (parse_header nb w.endianness ((write_to_memory nb w).take t)
        = .ok (w.calculate_header_size, w.identifier, w.version) ∧
      20 + w.identifier.length + w.version.length ≤ t) := by
  have hrem : w.calculate_header_size + remSum w.files < 2 ^ 32 := hsmall
  have hhs := calculate_header_size_eq w
  have hlen : ((write_to_memory nb w).take t).length = t := by
    rw [List.length_take, Nat.min_eq_left ht]
  by_cases h0 : t < 4
  · exact Or.inl ⟨.format "File too small for header",
      by simp only [parse_header, hlen]; rw [if_pos h0]⟩
  by_cases h1 : t < 4 + 8
  · refine Or.inl ⟨.format "Incomplete identifier length", ?_⟩
    simp only [parse_header, hlen]
    rw [if_neg h0, if_pos h1]
  have hv1 : readIntAt nb w.endianness ((write_to_memory nb w).take t) 4 8
      = w.identifier.length := by
    rw [readIntAt_take (by omega), header_value_ident_length nb w hsmall]
  by_cases h2 : t < 12 + w.identifier.length
  · refine Or.inl ⟨.format "Identifier extends beyond file", ?_⟩
    simp only [parse_header, hlen, hv1]
    rw [if_neg h0, if_neg h1, if_pos h2]
  have hv2 : extract ((write_to_memory nb w).take t) 12 w.identifier.length
      = w.identifier := by
    rw [extract_take (by omega), header_value_ident nb w]
  by_cases h3 : t < 12 + w.identifier.length + 8
  · refine Or.inl ⟨.format "Incomplete version length", ?_⟩
    simp only [parse_header, hlen, hv1, hv2]
    rw [if_neg h0, if_neg h1, if_neg h2, if_pos h3]
  have hv3 : readIntAt nb w.endianness ((write_to_memory nb w).take t)
      (12 + w.identifier.length) 8 = w.version.length := by
    rw [readIntAt_take (by omega), header_value_version_length nb w hsmall]
  by_cases h4 : t < 20 + w.identifier.length + w.version.length
  · refine Or.inl ⟨.format "Version extends beyond file", ?_⟩
    simp only [parse_header, hlen, hv1, hv2, hv3]
    rw [if_neg h0, if_neg h1, if_neg h2, if_neg h3, if_pos h4]
  have hv0 : readIntAt nb w.endianness ((write_to_memory nb w).take t) 0 4
      = w.calculate_header_size := by
    rw [readIntAt_take (by omega), header_value_data_offset nb w hsmall]
  have hv4 : extract ((write_to_memory nb w).take t) (20 + w.identifier.length)
      w.version.length = w.version := by
    rw [extract_take (by omega), header_value_version nb w]
  refine Or.inr ⟨?_, by omega⟩
  simp only [parse_header, hlen, hv0, hv1, hv2, hv3, hv4]
  rw [if_neg h0, if_neg h1, if_neg h2, if_neg h3, if_neg h4]

/-- Parsing the rows of a truncation of the serialized table either fails at
some check, or parses every row, in which case the final running offset (the
end of the last entry's data, when there is one) fits inside the
truncation. -/
theorem parseRows_take (nb : Bool) (e : Endianness) (thr : Nat) (strm : Bool)
    (D : List Nat) :
    ∀ (fs : List FileEntry) (Y Z X : List Nat) (pos cur : Nat) (t : Nat),
      D = Y ++ (tableBytes nb e fs ++ Z) →
      pos = Y.length →
      D = X ++ dataSectionFrom cur fs →
      cur = X.length →
      cur + remSum fs < 2 ^ 32 →
      t ≤ D.length →
      (∃ er, (parseRows nb e thr strm (D.take t) fs.length pos cur).2.2.2
          = some er) ∨
      ((parseRows nb e thr strm (D.take t) fs.length pos cur).2.2.2 = none ∧
        (fs = [] ∨ finalCur cur fs ≤ t)) := by
  intro fs
  induction fs with
  | nil =>
    intro Y Z X pos cur t hY hpos hX hcur hsm ht
    exact Or.inr ⟨by simp [parseRows], Or.inl rfl⟩
  | cons f fs ih =>
    intro Y Z X pos cur t hY hpos hX hcur hsm ht
    have hsm0 : cur + (f.align + f.data.length + remSum fs) < 2 ^ 32 := hsm
    have halign1 : cur + f.align - 1 < 2 ^ 32 := by omega
    have hge := alignUp_ge halign1
    have hle := alignUp_le_add halign1
    have hsm2 : (alignUp cur f.align + f.data.length) + remSum fs < 2 ^ 32 := by
      omega
    have hY' : D = Y ++ (write_with_endianness nb 8 f.path.length e ++
        (f.path ++ (write_with_endianness nb 8 f.data.length e ++
          (write_with_endianness nb 4 f.align e ++ (tableBytes nb e fs ++ Z))))) := by
      simpa [tableBytes, rowBytes, List.append_assoc] using hY
    have hX' : D = X ++ (List.replicate (alignUp cur f.align - cur) 0 ++
        (f.data ++ dataSectionFrom (alignUp cur f.align + f.data.length) fs)) := by
      simpa [dataSectionFrom, List.append_assoc] using hX
    have hDlen : D.length = pos + (8 + (f.path.length + (8 + (4 +
        ((tableBytes nb e fs).length + Z.length))))) := by
      subst hpos
      rw [hY']
      simp [List.length_append, length_write_with_endianness]
    have hlrest := length_dataSectionFrom
      (c := alignUp cur f.align + f.data.length) (l := fs) hsm2
    have hfc := finalCur_le (c := alignUp cur f.align + f.data.length) hsm2
    have hDlenX : D.length = cur + ((alignUp cur f.align - cur) + (f.data.length +
        (dataSectionFrom (alignUp cur f.align + f.data.length) fs).length)) := by
      subst hcur
      rw [hX']
      simp [List.length_append, List.length_replicate]
    have hDsmall : D.length < 2 ^ 32 := by omega
    have hlen : (D.take t).length = t := by
      rw [List.length_take, Nat.min_eq_left ht]
    have hpow8 : (256 : Nat) ^ 8 = 2 ^ 64 := by norm_num
    have hpow4 : (256 : Nat) ^ 4 = 2 ^ 32 := by norm_num
    rw [List.length_cons]
    by_cases c1 : t < pos + 8
    · refine Or.inl ⟨.format "Incomplete file path length", ?_⟩
      simp only [parseRows, hlen]
      rw [if_pos c1]
    have hv1 : readIntAt nb e (D.take t) pos 8 = f.path.length := by
      rw [readIntAt_take (by omega), readIntAt_of_append hY' hpos, hpow8]
      exact Nat.mod_eq_of_lt (by omega)
    by_cases c2 : t < pos + 8 + f.path.length
    · refine Or.inl ⟨.format "File path extends beyond file", ?_⟩
      simp only [parseRows, hlen, hv1]
      rw [if_neg c1, if_pos c2]
    have hv2 : extract (D.take t) (pos + 8) f.path.length = f.path := by
      rw [extract_take (by omega)]
      exact extract_of_append (A := Y ++ write_with_endianness nb 8 f.path.length e)
        (C := write_with_endianness nb 8 f.data.length e ++
          (write_with_endianness nb 4 f.align e ++ (tableBytes nb e fs ++ Z)))
        (by simpa [List.append_assoc] using hY')
        (by simp [hpos, length_write_with_endianness]) rfl
    by_cases c3 : t < pos + 8 + f.path.length + 8
    · refine Or.inl ⟨.format "Incomplete file length", ?_⟩
      simp only [parseRows, hlen, hv1, hv2]
      rw [if_neg c1, if_neg c2, if_pos c3]
    have hv3 : readIntAt nb e (D.take t) (pos + 8 + f.path.length) 8
        = f.data.length := by
      rw [readIntAt_take (by omega), readIntAt_of_append
        (A := (Y ++ write_with_endianness nb 8 f.path.length e) ++ f.path)
        (by simpa [List.append_assoc] using hY')
        (by simp [hpos, length_write_with_endianness]; omega), hpow8]
      exact Nat.mod_eq_of_lt (by omega)
    by_cases c4 : t < pos + 8 + f.path.length + 8 + 4
    · refine Or.inl ⟨.oob, ?_⟩
      simp only [parseRows, hlen, hv1, hv2, hv3]
      rw [if_neg c1, if_neg c2, if_neg c3, if_pos c4]
    have hv4 : readIntAt nb e (D.take t) (pos + 8 + f.path.length + 8) 4
        = f.align := by
      rw [readIntAt_take (by omega), readIntAt_of_append
        (A := ((Y ++ write_with_endianness nb 8 f.path.length e) ++ f.path)
          ++ write_with_endianness nb 8 f.data.length e)
        (by simpa [List.append_assoc] using hY')
        (by simp [hpos, length_write_with_endianness]; omega), hpow4]
      exact Nat.mod_eq_of_lt (by omega)
    have hbnd : (alignUp cur f.align + f.data.length) % 2 ^ 64
        = alignUp cur f.align + f.data.length :=
      Nat.mod_eq_of_lt (by omega)
    by_cases c5 : t < alignUp cur f.align + f.data.length
    · refine Or.inl ⟨.format "File extends beyond archive", ?_⟩
      simp only [parseRows, hlen, hv1, hv2, hv3, hv4]
      rw [if_neg c1, if_neg c2, if_neg c3, if_neg c4, hbnd, if_pos c5]
    have hrec := ih ((((Y ++ write_with_endianness nb 8 f.path.length e) ++ f.path)
          ++ write_with_endianness nb 8 f.data.length e)
          ++ write_with_endianness nb 4 f.align e) Z
        ((X ++ List.replicate (alignUp cur f.align - cur) 0) ++ f.data)
        (pos + 8 + f.path.length + 8 + 4) (alignUp cur f.align + f.data.length) t
        (by simpa [List.append_assoc] using hY')
        (by simp [hpos, length_write_with_endianness]; omega)
        (by simpa [List.append_assoc] using hX')
        (by simp [List.length_append, List.length_replicate]; omega)
        hsm2 ht
    have hstep : parseRows nb e thr strm (D.take t) (fs.length + 1) pos cur
        = (mkArchiveFile f.path (alignUp cur f.align) f.data.length (D.take t)
              thr strm ::
            (parseRows nb e thr strm (D.take t) fs.length
              (pos + 8 + f.path.length + 8 + 4)
              (alignUp cur f.align + f.data.length)).1,
          (parseRows nb e thr strm (D.take t) fs.length
              (pos + 8 + f.path.length + 8 + 4)
              (alignUp cur f.align + f.data.length)).2.1,
          (parseRows nb e thr strm (D.take t) fs.length
              (pos + 8 + f.path.length + 8 + 4)
              (alignUp cur f.align + f.data.length)).2.2.1,
          (parseRows nb e thr strm (D.take t) fs.length
              (pos + 8 + f.path.length + 8 + 4)
              (alignUp cur f.align + f.data.length)).2.2.2) := by
      simp only [parseRows, hlen, hv1, hv2, hv3, hv4]
      rw [if_neg c1, if_neg c2, if_neg c3, if_neg c4, hbnd, if_neg c5]
    rcases hrec with ⟨er, her⟩ | ⟨hnone, hend⟩
    · exact Or.inl ⟨er, by rw [hstep]; exact her⟩
    · refine Or.inr ⟨by rw [hstep]; exact hnone, Or.inr ?_⟩
      show finalCur (alignUp cur f.align + f.data.length) fs ≤ t
      rcases hend with rfl | hle'
      · simpa [finalCur] using Nat.le_of_not_lt c5
      · exact hle'

/-- Writer for the C2 counterexample: identifier "I", version "V", one
two-byte entry "a". -/
def truncCexWriter : ArchiveWriter :=
  { identifier := [73], version := [86], endianness := .Native,
    default_alignment := 1,
    files := [{ path := [97], data := [104, 105], align := 1 }] }

/-- C2 counterexample.  The claim says `open` on any truncation of a valid
archive fails with a format error, every fixed-width field being
bounds-checked first.  Truncating this valid 53-byte archive to 22 bytes
(just after the version field) makes the parser read the 8-byte entry count
past the end of the buffer — the source performs this read with no bounds
check (undefined behaviour, the model's `oob` marker), not a format error. -/
theorem claim_C2_counterexample :
    22 < (write_to_memory false truncCexWriter).length ∧
    (openReader false .Native 0 false
        (.ok ((write_to_memory false truncCexWriter).take 22)) [] []).1
      = .error .oob := by
  refine ⟨by decide, ?_⟩
  rfl

/-- C2 amended (proved).  Truncating a serialized archive to any length
strictly less than its total length always makes `open` fail — never a
silent partial parse — but not always with a format error: the entry-count
and alignment fields are read without a bounds check, so truncations landing
in them are out-of-bounds reads (undefined behaviour) rather than format
errors; every length-prefixed field and the size field are bounds-checked. -/
theorem claim_C2_truncation (nb : Bool) (w : ArchiveWriter) (thr : Nat)
    (strm : Bool) (hid hver : List Nat) (hsmall : smallBound w < 2 ^ 32)
    (t : Nat) (ht : t < (write_to_memory nb w).length) :
    ∃ er, (openReader nb w.endianness thr strm
        (.ok ((write_to_memory nb w).take t)) hid hver).1 = .error er := by
  have ht' : t ≤ (write_to_memory nb w).length := Nat.le_of_lt ht
  have hrem : w.calculate_header_size + remSum w.files < 2 ^ 32 := hsmall
  have hhs := calculate_header_size_eq w
  have hBlen := length_write_to_memory nb w hsmall
  have hlen : ((write_to_memory nb w).take t).length = t := by
    rw [List.length_take, Nat.min_eq_left ht']
  rcases parse_header_take_serialized nb w t hsmall ht' with ⟨er, hph⟩ | ⟨hph, hpos⟩
  · exact ⟨er, by simp only [openReader, hph]⟩
  by_cases hnum : t < 4 + 8 + w.identifier.length + 8 + w.version.length + 8
  · refine ⟨.oob, ?_⟩
    have htab : parse_file_table nb w.endianness thr strm
        ((write_to_memory nb w).take t) w.calculate_header_size
        w.identifier w.version = ([], some .oob) := by
      simp only [parse_file_table, hlen]
      rw [if_pos hnum]
    simp only [openReader, hph, htab]
  have hvn : readIntAt nb w.endianness ((write_to_memory nb w).take t)
      (4 + 8 + w.identifier.length + 8 + w.version.length) 8
      = w.files.length := by
    rw [readIntAt_take (by omega), header_value_num_files nb w hsmall]
  have hrows := parseRows_take nb w.endianness thr strm (write_to_memory nb w)
    w.files (headerBytes nb w)
    (dataSectionFrom w.calculate_header_size w.files)
    (headerBytes nb w ++ tableBytes nb w.endianness w.files)
    (4 + 8 + w.identifier.length + 8 + w.version.length + 8)
    w.calculate_header_size t
    (by simp [write_to_memory, List.append_assoc])
    (by simp [length_headerBytes]; omega)
    (by simp [write_to_memory, List.append_assoc])
    (by simp [List.length_append, length_headerBytes, length_tableBytes]; omega)
    hrem ht'
  rcases hrows with ⟨er, her⟩ | ⟨hnone, hend⟩
  · refine ⟨er, ?_⟩
    have htab : parse_file_table nb w.endianness thr strm
        ((write_to_memory nb w).take t) w.calculate_header_size
        w.identifier w.version
        = ((parseRows nb w.endianness thr strm ((write_to_memory nb w).take t)
            w.files.length
            (4 + 8 + w.identifier.length + 8 + w.version.length + 8)
            w.calculate_header_size).1, some er) := by
      simp only [parse_file_table, hlen, hvn]
      rw [if_neg hnum, her]
    simp only [openReader, hph, htab]
  · exfalso
    rcases hend with hfs | hfin
    · rw [hfs] at hBlen
      simp only [finalCur] at hBlen
      rw [hfs] at hhs
      simp only [rowSize] at hhs
      omega
    · omega

/-- Witness for C2 amended: the concrete scenario archive truncated to 10
bytes fails to open. -/
theorem claim_C2_truncation_witness :
    smallBound scenarioWriter < 2 ^ 32 ∧
    10 < (write_to_memory false scenarioWriter).length ∧
    ∃ er, (openReader false scenarioWriter.endianness 0 false
        (.ok ((write_to_memory false scenarioWriter).take 10)) [] []).1
      = .error er :=
  ⟨by decide, by decide,
    claim_C2_truncation false scenarioWriter 0 false [] [] (by decide) 10
      (by decide)⟩

/-- The spec's alignment property for a whole layout: every entry's offset is
the smallest multiple of its alignment at or beyond the end of the previous
entry's data (the first starting from the initial cursor). -/
def layoutOK : Nat → List FileEntry → Prop
  | _, [] => True
  | cur, f :: fs =>
    leastAligned f.align cur (alignUp cur f.align) ∧
      layoutOK (alignUp cur f.align + f.data.length) fs

/-- Entries exhibiting the 32-bit mask truncation: a 4 GiB first entry pushes
the running offset to `2^32`, where the second entry's alignment round-up
collapses to 0. -/
def c4Entries : List FileEntry :=
  [{ path := [97], data := List.replicate (2 ^ 32) 0, align := 2 },
   { path := [98], data := [], align := 2 }]

/-- C4 counterexample.  With alignment 2 (a power of two greater than 1) and
a previous entry ending at `2^32`, the layout computation used by both writer
and reader places the next entry at offset 0 — because `~(align - 1)` is a
32-bit complement zero-extended to 64 bits, the AND clears the offset's upper
bits — while the smallest multiple of 2 at or beyond `2^32` is `2^32`. -/
theorem claim_C4_counterexample :
    (layoutFiles [] 0 false 0 c4Entries).map (fun g => g.offset) = [0, 0] ∧
    ¬ leastAligned 2 (2 ^ 32) 0 ∧
    alignUp (2 ^ 32) 2 = 0 := by
  refine ⟨?_, fun h => absurd h.2.1 (by norm_num), by decide⟩
  simp only [c4Entries, layoutFiles, List.length_replicate, List.map_cons,
    List.map_nil, mkArchiveFile_offset]
  decide

theorem layoutOK_of_pow2 :
    ∀ (fs : List FileEntry) (cur : Nat),
      (∀ fe ∈ fs, ∃ k, 0 < k ∧ fe.align = 2 ^ k) →
      cur + remSum fs < 2 ^ 32 → layoutOK cur fs := by
  intro fs
  induction fs with
  | nil => intro cur _ _; trivial
  | cons f fs ih =>
    intro cur hpow hsm
    have hsm0 : cur + (f.align + f.data.length + remSum fs) < 2 ^ 32 := hsm
    have halign1 : cur + f.align - 1 < 2 ^ 32 := by omega
    have hle := alignUp_le_add halign1
    obtain ⟨k, hk, ha⟩ := hpow f (List.mem_cons_self f fs)
    refine ⟨?_, ?_⟩
    · rw [ha]
      exact alignUp_leastAligned hk (by rw [← ha]; omega)
    · exact ih (alignUp cur f.align + f.data.length)
        (fun fe hfe => hpow fe (List.mem_cons_of_mem _ hfe)) (by omega)

/-- C4 amended (proved).  For alignments that are powers of two greater
than 1, and as long as the layout arithmetic stays below `2^32` (the width of
the alignment mask), each entry's offset — in the writer's layout and in what
the reader parses back from the serialized archive — is the smallest multiple
of its alignment at or beyond the end of the previous entry's data. -/
theorem claim_C4_alignment (nb : Bool) (w : ArchiveWriter) (thr : Nat)
    (strm : Bool) (hid hver : List Nat)
    (hpow : ∀ fe ∈ w.files, ∃ k, 0 < k ∧ fe.align = 2 ^ k)
    (hsmall : smallBound w < 2 ^ 32) :
    layoutOK w.calculate_header_size w.files ∧
    (openReader nb w.endianness thr strm (.ok (write_to_memory nb w)) hid
        hver).2.files
      = layoutFiles (write_to_memory nb w) thr strm w.calculate_header_size
          w.files := by
  constructor
  · exact layoutOK_of_pow2 w.files w.calculate_header_size hpow hsmall
  · rw [openReader_serialized nb w thr strm hid hver hsmall]

/-- Writer with a single alignment-4 entry for the C4 witness. -/
def alignedWriter : ArchiveWriter :=
  { identifier := [65], version := [66], endianness := .Big,
    default_alignment := 1,
    files := [{ path := [99], data := [1, 2, 3], align := 4 }] }

/-- Witness for C4 amended at the alignment-4 writer. -/
theorem claim_C4_alignment_witness :
    layoutOK alignedWriter.calculate_header_size alignedWriter.files ∧
    (openReader false alignedWriter.endianness 0 false
        (.ok (write_to_memory false alignedWriter)) [] []).2.files
      = layoutFiles (write_to_memory false alignedWriter) 0 false
          alignedWriter.calculate_header_size alignedWriter.files :=
  claim_C4_alignment false alignedWriter 0 false [] []
    (by
      intro fe hfe
      simp only [alignedWriter, List.mem_singleton] at hfe
      subst hfe
      exact ⟨2, by norm_num, rfl⟩)
    (by decide)

end RPFL
